import Mathlib

/-!
Verification development for the MDS scrub scheduler (`ScrubStack`).

The repository snapshot contains `src/mds/ScrubStack.h` only: the header
carries the data members, the inline destructor assertions, the inline
`enqueue_dentry_top` / `enqueue_dentry_bottom` wrappers and the inline
`C_KickOffScrubs::finish` body, while the remaining member functions are
declarations whose bodies live in a `ScrubStack.cc` that is not part of
the snapshot.  Those missing bodies are modelled here from the
natural-language specification (marked `Modelled from the spec:`); the
inline header code is embedded directly.

Dentries, directories and fragments are identified by natural numbers.
The cache/tree collaborator (`MDCache` and friends) is modelled as an
environment supplying, for each dentry, whether its inode is a directory
and the list of its child dentries.  Asynchronous verification is
modelled by an explicit in-flight list plus a completion transition, and
the `Finisher` by a counter of scheduled single-shot drive-loop
continuations.
-/

/-- Modelled from the spec: the per-entry scrub progress state used by the
container-expansion state machine (spec §4.3) together with the states a
file verification passes through. `expanding rem` holds the child dentries
of the entry that have not yet been inspected. -/
inductive EntryState where
  | unstarted : EntryState
  | expanding : List Nat → EntryState
  | finalizing : EntryState
  | fileInFlight : EntryState
  | done : EntryState
deriving DecidableEq, Repr

/-- Modelled from the spec: the scrub parameters an entry carries (spec §3
"Stack Entry"): the recursive flag, the children-only flag and the shared
scrub header (tag string and origin entry, cf. `ScrubHeader` in the
source header). -/
structure EntryInfo where
  recursive : Bool
  children : Bool
  tag : String
  origin : Nat
deriving DecidableEq, Repr

/-- Modelled from the spec: the interface this core consumes from the
tree/cache collaborator (spec §6): whether a dentry's inode is a
directory, and the ordered child dentries of a directory. -/
structure Env where
  isDir : Nat → Bool
  children : Nat → List Nat

/-- The scheduler state.  `dentry_stack` and `scrubs_in_progress` are the
fields of the source header (`elist<CDentry*> dentry_stack`,
`int scrubs_in_progress`); the head of `dentry_stack` is the top of the
stack.  The remaining fields model the spec's description of the missing
implementation: `pending_kicks` counts single-shot `C_KickOffScrubs`
continuations currently scheduled on the `Finisher`; `inflight` lists the
dentries with an outstanding asynchronous verification (most recent
first); `est` and `info` give each dentry's scrub progress state and
attached scrub parameters; `cbs` lists dentries holding a not-yet-fired
`on_finish` callback; `fired` logs callback invocations in order;
`scrub_file_log` logs every dispatch of `scrub_file_dentry`. -/
structure ScrubStack where
  dentry_stack : List Nat
  scrubs_in_progress : Nat
  pending_kicks : Nat
  inflight : List Nat
  est : Nat → EntryState
  info : Nat → Option EntryInfo
  cbs : List Nat
  fired : List Nat
  scrub_file_log : List Nat

/-- The freshly constructed scheduler: empty stack, zero counter (from the
source constructor's initializer list). -/
def ScrubStack.initial : ScrubStack :=
  { dentry_stack := []
    scrubs_in_progress := 0
    pending_kicks := 0
    inflight := []
    est := fun _ => EntryState.unstarted
    info := fun _ => none
    cbs := []
    fired := []
    scrub_file_log := [] }

/-- Embedded from the source header: the destructor's assertions
`assert(dentry_stack.empty()); assert(!scrubs_in_progress);` — `some ()`
when both asserts pass, `none` when destruction aborts. -/
def ScrubStack.destructor_checks (s : ScrubStack) : Option Unit :=
  if s.dentry_stack.isEmpty then
    if s.scrubs_in_progress = 0 then some () else none
  else none

/-- Embedded from the source header's declaration of `push_dentry`: push a
dentry on top of the stack. -/
def ScrubStack.push_dentry (s : ScrubStack) (dn : Nat) : ScrubStack :=
  { s with dentry_stack := dn :: s.dentry_stack }

/-- Embedded from the source header's declaration of `push_dentry_bottom`:
push a dentry to the bottom of the stack. -/
def ScrubStack.push_dentry_bottom (s : ScrubStack) (dn : Nat) : ScrubStack :=
  { s with dentry_stack := s.dentry_stack ++ [dn] }

/-- Embedded from the source header's declaration of `pop_dentry`: remove
the given dentry from the stack. -/
def ScrubStack.pop_dentry (s : ScrubStack) (dn : Nat) : ScrubStack :=
  { s with dentry_stack := s.dentry_stack.erase dn }

/-- Modelled from the spec: `ScrubStack::scrub_file_dentry` (body missing
from the snapshot).  Delegates the file's verification to the external
per-object primitive, which completes asynchronously here: the dentry is
recorded as in flight, the in-progress counter is incremented, and the
dispatch is logged.  Precondition in the source header:
`dn->get_projected_inode()->is_file()==true`. -/
def ScrubStack.scrub_file_dentry (s : ScrubStack) (dn : Nat) : ScrubStack :=
  { s with est := Function.update s.est dn EntryState.fileInFlight
           inflight := dn :: s.inflight
           scrubs_in_progress := s.scrubs_in_progress + 1
           scrub_file_log := s.scrub_file_log ++ [dn] }

/-- Modelled from the spec: one activation step of the drive loop
`ScrubStack::kick_off_scrubs` (body missing from the snapshot), per spec
§4.2/§4.3.  It inspects the entry at the top of the stack and dispatches
one verification or expansion step; the spec's "loop again, still within
this activation" is modelled by scheduling a further activation
(`pending_kicks + 1`) whenever local progress was made, which preserves
the order in which entries are examined.  A blocked top entry ends the
activation without rescheduling. -/
def ScrubStack.kick_off_scrubs (env : Env) (s : ScrubStack) : ScrubStack :=
  match s.dentry_stack with
  | [] => s
  | d :: _ =>
    match s.est d with
    | EntryState.done =>
        { s.pop_dentry d with
            fired := s.fired ++ (if d ∈ s.cbs then [d] else [])
            cbs := s.cbs.erase d
            pending_kicks := s.pending_kicks + 1 }
    | EntryState.unstarted =>
        if env.isDir d then
          let i := (s.info d).getD ⟨false, false, "", d⟩
          { s with
              est := Function.update s.est d
                (EntryState.expanding
                  (if i.recursive || i.children then env.children d else []))
              pending_kicks := s.pending_kicks + 1 }
        else
          s.scrub_file_dentry d
    | EntryState.fileInFlight => s
    | EntryState.finalizing => s
    | EntryState.expanding [] =>
        if (env.children d).any (fun x => decide (x ∈ s.inflight)) then s
        else
          { s with est := Function.update s.est d EntryState.finalizing
                   inflight := d :: s.inflight
                   scrubs_in_progress := s.scrubs_in_progress + 1 }
    | EntryState.expanding (c :: cs) =>
        if c ∈ s.dentry_stack ∨ s.est c ≠ EntryState.unstarted then
          { s with est := Function.update s.est d (EntryState.expanding cs)
                   pending_kicks := s.pending_kicks + 1 }
        else if env.isDir c then
          let i := (s.info d).getD ⟨false, false, "", d⟩
          { s.push_dentry c with
              est := Function.update s.est d (EntryState.expanding cs)
              info := if (s.info c).isNone then
                  Function.update s.info c (some ⟨i.recursive, false, i.tag, i.origin⟩)
                else s.info
              pending_kicks := s.pending_kicks + 1 }
        else
          let s1 := s.scrub_file_dentry c
          { s1 with est := Function.update s1.est d (EntryState.expanding cs)
                    pending_kicks := s1.pending_kicks + 1 }

/-- Modelled from the spec: completion of an outstanding asynchronous
verification for dentry `dn` (file verification or container metadata
verification).  The entry reaches `done`, the in-progress counter drops,
and a drive-loop re-entry is scheduled through the finisher (spec §4.4). -/
def ScrubStack.scrub_complete (s : ScrubStack) (dn : Nat) : ScrubStack :=
  if dn ∈ s.inflight then
    { s with est := Function.update s.est dn EntryState.done
             inflight := s.inflight.erase dn
             scrubs_in_progress := s.scrubs_in_progress - 1
             pending_kicks := s.pending_kicks + 1 }
  else s

/-- Modelled from the spec: the shared enqueue routine
`ScrubStack::enqueue_dentry` (body missing from the snapshot), resident
path: attach a scrub header if the entry has none (spec §4.1), insert the
dentry at the requested end unless it is already queued (queue membership
is exclusive; re-enqueue is a no-op), record the completion callback, and
schedule a deferred drive-loop re-entry instead of invoking it
synchronously. -/
def ScrubStack.enqueue_dentry (s : ScrubStack) (dn : Nat)
    (recursive children : Bool) (tag : String) (on_finish : Bool)
    (top : Bool) : ScrubStack :=
  if dn ∈ s.dentry_stack then
    { s with
        info := if (s.info dn).isNone then
            Function.update s.info dn (some ⟨recursive, children, tag, dn⟩)
          else s.info
        pending_kicks := s.pending_kicks + 1 }
  else
    { s with
        dentry_stack := if top then dn :: s.dentry_stack else s.dentry_stack ++ [dn]
        info := if (s.info dn).isNone then
            Function.update s.info dn (some ⟨recursive, children, tag, dn⟩)
          else s.info
        cbs := if on_finish then dn :: s.cbs else s.cbs
        pending_kicks := s.pending_kicks + 1 }

/-- Embedded from the source header: `enqueue_dentry_top` delegates to the
shared routine with the insertion-end flag `true`. -/
def ScrubStack.enqueue_dentry_top (s : ScrubStack) (dn : Nat)
    (recursive children : Bool) (tag : String) (on_finish : Bool) : ScrubStack :=
  s.enqueue_dentry dn recursive children tag on_finish true

/-- Embedded from the source header: `enqueue_dentry_bottom` delegates to
the shared routine with the insertion-end flag `false`. -/
def ScrubStack.enqueue_dentry_bottom (s : ScrubStack) (dn : Nat)
    (recursive children : Bool) (tag : String) (on_finish : Bool) : ScrubStack :=
  s.enqueue_dentry dn recursive children tag on_finish false

/-- Embedded from the source header: `C_KickOffScrubs::finish(int r)` whose
body is `stack->kick_off_scrubs();` — the single-shot continuation's sole
effect is invoking the drive loop (the result code is ignored). -/
def C_KickOffScrubs_finish (env : Env) (_r : Int) (s : ScrubStack) : ScrubStack :=
  ScrubStack.kick_off_scrubs env s

/-- Modelled from the spec: the observable events of the scheduler — the
two public enqueue operations, the firing of one scheduled
`C_KickOffScrubs` continuation by the finisher, and the completion of one
outstanding asynchronous verification. -/
inductive SEvent where
  | enqTop : Nat → Bool → Bool → String → Bool → SEvent
  | enqBottom : Nat → Bool → Bool → String → Bool → SEvent
  | kickFire : SEvent
  | complete : Nat → SEvent

/-- Modelled from the spec: the effect of one event on the scheduler
state.  `kickFire` consumes one scheduled continuation (a no-op when none
is pending); `complete dn` is a no-op unless `dn` is actually in flight. -/
def SEvent.step (env : Env) (s : ScrubStack) : SEvent → ScrubStack
  | SEvent.enqTop dn r c tg f => s.enqueue_dentry_top dn r c tg f
  | SEvent.enqBottom dn r c tg f => s.enqueue_dentry_bottom dn r c tg f
  | SEvent.kickFire =>
      if s.pending_kicks > 0 then
        ScrubStack.kick_off_scrubs env { s with pending_kicks := s.pending_kicks - 1 }
      else s
  | SEvent.complete dn => s.scrub_complete dn

/-- Run a list of events from a given state. -/
def ScrubStack.steps (env : Env) (evs : List SEvent) (s : ScrubStack) : ScrubStack :=
  evs.foldl (fun t e => e.step env t) s

/-- The state reached from the freshly constructed scheduler by a list of
events: the reachable states of the model are exactly the
`ScrubStack.reach env evs` for some event list. -/
def ScrubStack.reach (env : Env) (evs : List SEvent) : ScrubStack :=
  ScrubStack.steps env evs ScrubStack.initial

/-- Modelled from the spec: the deterministic fair driver used to drain
the scheduler.  It fires a scheduled drive-loop continuation when one is
pending, otherwise completes the most recent outstanding asynchronous
verification; when neither exists it does nothing (the scheduler is
quiescent). -/
def ScrubStack.dstep (env : Env) (s : ScrubStack) : ScrubStack :=
  if s.pending_kicks > 0 then
    ScrubStack.kick_off_scrubs env { s with pending_kicks := s.pending_kicks - 1 }
  else
    match s.inflight with
    | [] => s
    | d :: _ => s.scrub_complete d

/-- Iterate the fair driver `n` times. -/
def ScrubStack.iter (env : Env) : Nat → ScrubStack → ScrubStack
  | 0, s => s
  | n + 1, s => ScrubStack.iter env n (ScrubStack.dstep env s)

/-- No scheduled continuation and no outstanding asynchronous operation:
the driver has nothing left to do. -/
def ScrubStack.quiescent (s : ScrubStack) : Prop :=
  s.pending_kicks = 0 ∧ s.inflight = []

/-- `s` reaches `s'` under the fair driver in at most `b` steps. -/
def ScrubStack.reachesIn (env : Env) (s s' : ScrubStack) (b : Nat) : Prop :=
  ∃ n, n ≤ b ∧ ScrubStack.iter env n s = s'

mutual
/-- Modelled from the spec: a finite namespace subtree handed to a
recursive scrub — a dentry whose inode is a file, or a directory dentry
with an ordered forest of child subtrees (fragments are taken as
resident, so a directory's children are enumerated directly). -/
inductive FsTree where
  | file : Nat → FsTree
  | dir : Nat → Forest → FsTree

/-- An ordered forest of namespace subtrees. -/
inductive Forest where
  | nil : Forest
  | cons : FsTree → Forest → Forest
end

/-- The dentry id at the root of a subtree. -/
def FsTree.root : FsTree → Nat
  | FsTree.file i => i
  | FsTree.dir i _ => i

mutual
/-- All dentry ids of a subtree, root first. -/
def FsTree.ids : FsTree → List Nat
  | FsTree.file i => [i]
  | FsTree.dir i ks => i :: Forest.ids ks

/-- All dentry ids of a forest. -/
def Forest.ids : Forest → List Nat
  | Forest.nil => []
  | Forest.cons t ts => FsTree.ids t ++ Forest.ids ts
end

/-- The root ids of the trees of a forest, in order. -/
def Forest.roots : Forest → List Nat
  | Forest.nil => []
  | Forest.cons t ts => FsTree.root t :: Forest.roots ts

mutual
/-- The dentries whose scrub reaches `done` when the subtree's root is
scrubbed with the given recursive / children-only flags: the root always;
with either flag set, additionally the targets of each child scrubbed
with the inherited flags (recursive children stay recursive, a
children-only scrub visits its direct children locally). -/
def FsTree.targets (r c : Bool) : FsTree → List Nat
  | FsTree.file i => [i]
  | FsTree.dir i ks => i :: (if r || c then Forest.targets r ks else [])

/-- Targets of the trees of a forest, children inheriting flags
`(r, false)`. -/
def Forest.targets (r : Bool) : Forest → List Nat
  | Forest.nil => []
  | Forest.cons t ts => FsTree.targets r false t ++ Forest.targets r ts
end

mutual
/-- The environment agrees with the subtree: file nodes are
non-directories, directory nodes are directories whose child enumeration
is exactly the forest's roots. -/
def FsTree.agrees (env : Env) : FsTree → Bool
  | FsTree.file i => !env.isDir i
  | FsTree.dir i ks =>
      env.isDir i && (env.children i == Forest.roots ks) && Forest.agrees env ks

/-- The environment agrees with every tree of the forest. -/
def Forest.agrees (env : Env) : Forest → Bool
  | Forest.nil => true
  | Forest.cons t ts => FsTree.agrees env t && Forest.agrees env ts
end

mutual
/-- Fuel bound for draining a subtree under the fair driver. -/
def FsTree.fuel : FsTree → Nat
  | FsTree.file _ => 3
  | FsTree.dir _ ks => 7 + Forest.fuel ks

/-- Fuel bound for expanding and draining the children of a directory. -/
def Forest.fuel : Forest → Nat
  | Forest.nil => 0
  | Forest.cons t ts => 4 + FsTree.fuel t + Forest.fuel ts
end

/-- Modelled from the spec: the scrub progress of one child dentry of a
dirfrag as `scrub_dirfrag` sees it — not yet started, outstanding
(queued on the stack or with a verification in flight), or finished. -/
inductive ChildScrubState where
  | unstarted : ChildScrubState
  | outstanding : ChildScrubState
  | finished : ChildScrubState
deriving DecidableEq, Repr

/-- Modelled from the spec: a child dentry of a dirfrag, with its id,
whether its inode is a directory, and its scrub progress. -/
structure FragChild where
  cid : Nat
  cdir : Bool
  cstate : ChildScrubState
deriving DecidableEq, Repr

/-- The out-parameters of `scrub_dirfrag` (`added_children`,
`is_terminal`, `done` in the source header), initialized to `false` by
the caller and set by the callee. -/
structure DirfragOuts where
  added_children : Bool
  is_terminal : Bool
  frag_done : Bool
deriving DecidableEq, Repr

/-- Mark one child of a dirfrag as outstanding. -/
def markOutstanding (kids : List FragChild) (target : Nat) : List FragChild :=
  kids.map (fun k => if k.cid = target then { k with cstate := ChildScrubState.outstanding } else k)

/-- Modelled from the spec: `ScrubStack::scrub_dirfrag` (body missing from
the snapshot), per spec §4.3 and the header's doc comment: inspect the
next not-yet-queued child of the fragment; push a container child
(reporting `added_children`) or dispatch a file child's verification; if
no unstarted child remains but child verifications are outstanding,
report no progress; if all children are finished, report the fragment
terminal and done.  Returns the updated child list, the updated
in-progress counter and the out-parameters. -/
def scrub_dirfrag (kids : List FragChild) (inprog : Nat) :
    List FragChild × Nat × DirfragOuts :=
  match kids.find? (fun k => k.cstate == ChildScrubState.unstarted) with
  | some k =>
      if k.cdir then
        (markOutstanding kids k.cid, inprog + 1, ⟨true, false, false⟩)
      else
        (markOutstanding kids k.cid, inprog + 1, ⟨false, false, false⟩)
  | none =>
      if kids.any (fun k => k.cstate == ChildScrubState.outstanding) then
        (kids, inprog, ⟨false, false, false⟩)
      else
        (kids, inprog, ⟨false, true, true⟩)

/-- Modelled from the spec: one dirfrag of an inode as `get_next_cdir`
sees it — its fragment id, whether it is resident and complete in the
cache, and whether this scrub already processed it. -/
structure CDirModel where
  frag_id : Nat
  complete : Bool
  scrubbed : Bool
deriving DecidableEq, Repr

/-- The result of `get_next_cdir`: the boolean return value, the
`new_dir` out-parameter (NULL modelled as `none`) and the fragment for
which an asynchronous fetch was issued, if any. -/
structure NextCdirRes where
  ret : Bool
  new_dir : Option Nat
  fetch_issued : Option Nat
deriving DecidableEq, Repr

/-- Modelled from the spec: `ScrubStack::get_next_cdir` (body missing from
the snapshot), per spec §4.3 and the header's doc comment: select the
next not-yet-scrubbed dirfrag of the inode; if none is left return `true`
with `new_dir` unset; if it is resident and complete return `true` with
the fragment in `new_dir`; otherwise issue an asynchronous fetch and
return `false` with `new_dir` left unset (the caller must wait). -/
def get_next_cdir (frags : List CDirModel) : NextCdirRes :=
  match frags.find? (fun f => !f.scrubbed) with
  | none => ⟨true, none, none⟩
  | some f =>
      if f.complete then ⟨true, some f.frag_id, none⟩
      else ⟨false, none, some f.frag_id⟩

/-- The structural invariants of the scheduler state that are preserved
by every operation: the stack holds no duplicates (queue membership is
exclusive), the in-progress counter counts exactly the outstanding
asynchronous operations, an entry whose verification is in flight is
recorded as in flight, a fired callback belongs to a `done` entry, and
`scrub_file_dentry` was only ever dispatched on file dentries. -/
def ScrubStack.InvA (env : Env) (s : ScrubStack) : Prop :=
  s.dentry_stack.Nodup ∧
  s.scrubs_in_progress = s.inflight.length ∧
  (∀ d, s.est d = EntryState.fileInFlight ∨ s.est d = EntryState.finalizing →
    d ∈ s.inflight) ∧
  (∀ d ∈ s.fired, s.est d = EntryState.done) ∧
  (∀ d ∈ s.scrub_file_log, env.isDir d = false)

/-- The full reachable-state invariant: the structural invariants
together with the at-rest property — with no scheduled drive-loop
continuation and no outstanding asynchronous operation the stack is
empty. -/
def ScrubStack.Inv (env : Env) (s : ScrubStack) : Prop :=
  ScrubStack.InvA env s ∧
  (s.pending_kicks = 0 → s.scrubs_in_progress = 0 → s.dentry_stack = [])

/-- A concrete environment in which every dentry is a file (used to
exhibit concrete runs of the model). -/
def envAllFiles : Env :=
  { isDir := fun _ => false, children := fun _ => [] }

/-- A concrete environment with one directory (dentry 0) containing the
two file dentries 1 and 2. -/
def envSmall : Env :=
  { isDir := fun d => d == 0
    children := fun d => if d == 0 then [1, 2] else [] }

/-- The namespace subtree rooted at dentry 0 in `envSmall`: a directory
with two file children. -/
def treeSmall : FsTree :=
  FsTree.dir 0 (Forest.cons (FsTree.file 1) (Forest.cons (FsTree.file 2) Forest.nil))

/-- A concrete blocked scheduler state: directory dentry 0 at the top of
the stack with all children inspected and child 1 still in flight. -/
def stateBlocked : ScrubStack :=
  { ScrubStack.initial with
      dentry_stack := [0]
      est := Function.update ScrubStack.initial.est 0 (EntryState.expanding [])
      inflight := [1]
      scrubs_in_progress := 1 }

/-- The ordering protection of a top-enqueued entry `B` over a
lower-priority entry `A` (spec §4.1/§8): as long as `B` is queued, `B`
sits strictly above `A` on the stack, and `A` has neither been examined
nor begun any verification step; once `B` has left the queue its scrub
state is no longer `unstarted`. -/
def OrderProtected (A B : Nat) (s : ScrubStack) : Prop :=
  (B ∈ s.dentry_stack →
    ([B, A].Sublist s.dentry_stack ∧ s.est A = EntryState.unstarted ∧
      A ∉ s.inflight)) ∧
  (B ∉ s.dentry_stack → s.est B ≠ EntryState.unstarted)

/-- The root ids of the file trees of a forest, in order. -/
def Forest.fileRoots : Forest → List Nat
  | Forest.nil => []
  | Forest.cons (FsTree.file i) ts => i :: Forest.fileRoots ts
  | Forest.cons (FsTree.dir _ _) ts => Forest.fileRoots ts

/-- The scrub targets contributed by the directory trees of a forest
(children inheriting flags `(r, false)`). -/
def Forest.dirTargets (r : Bool) : Forest → List Nat
  | Forest.nil => []
  | Forest.cons (FsTree.file _) ts => Forest.dirTargets r ts
  | Forest.cons (FsTree.dir i ks) ts =>
      FsTree.targets r false (FsTree.dir i ks) ++ Forest.dirTargets r ts

/-- Fuel bound for the child-processing phase of a directory drain (one
dispatch step per file child, one push step plus a full subtree drain per
directory child). -/
def Forest.fuelF : Forest → Nat
  | Forest.nil => 0
  | Forest.cons (FsTree.file _) ts => 1 + Forest.fuelF ts
  | Forest.cons (FsTree.dir i ks) ts =>
      1 + FsTree.fuel (FsTree.dir i ks) + Forest.fuelF ts

/-- The drain contract of one subtree under the fair driver: from a state
whose stack top is the subtree's fresh root (scrub parameters attached,
one activation pending, arbitrary unrelated verifications `O` in flight),
the driver reaches, within the subtree's fuel, the state in which the
root has been popped, exactly its scrub targets are `done`, its callback
(if any) has fired exactly once, and everything else — including the
unrelated in-flight set `O` — is untouched. -/
def DrainT (t : FsTree) : Prop :=
  ∀ (env : Env) (s : ScrubStack) (rest O : List Nat) (r c : Bool)
    (tg : String) (og : Nat),
    FsTree.agrees env t = true →
    (FsTree.ids t).Nodup →
    s.dentry_stack = FsTree.root t :: rest →
    s.pending_kicks = 1 →
    s.inflight = O →
    s.scrubs_in_progress = O.length →
    (∀ x ∈ FsTree.ids t, s.est x = EntryState.unstarted) →
    (∀ x ∈ FsTree.ids t, x ∉ rest) →
    (∀ x ∈ FsTree.ids t, x ∉ O) →
    (∀ x ∈ FsTree.ids t, x ≠ FsTree.root t → x ∉ s.cbs) →
    (∀ x ∈ FsTree.ids t, x ≠ FsTree.root t → s.info x = none) →
    s.info (FsTree.root t) = some ⟨r, c, tg, og⟩ →
    ∃ n, n ≤ FsTree.fuel t ∧
      (ScrubStack.iter env n s).dentry_stack = rest ∧
      (ScrubStack.iter env n s).pending_kicks = 1 ∧
      (ScrubStack.iter env n s).inflight = O ∧
      (ScrubStack.iter env n s).scrubs_in_progress = O.length ∧
      (∀ x ∈ FsTree.targets r c t, (ScrubStack.iter env n s).est x = EntryState.done) ∧
      (∀ x, x ∉ FsTree.targets r c t → (ScrubStack.iter env n s).est x = s.est x) ∧
      (ScrubStack.iter env n s).fired =
        s.fired ++ (if FsTree.root t ∈ s.cbs then [FsTree.root t] else []) ∧
      (ScrubStack.iter env n s).cbs = s.cbs.erase (FsTree.root t) ∧
      (∀ x, x ∉ FsTree.ids t → (ScrubStack.iter env n s).info x = s.info x)

/-- The drain contract of the child-processing phase of a directory `d`:
from a state in which `d` is on top with the forest's roots still to
inspect, the driver reaches, within the phase fuel, the state in which
`d` has inspected all children, every directory child subtree is fully
drained, every file child is dispatched and still in flight (stacked over
the prior in-flight sets `W` and `O`), and everything else is
untouched. -/
def DrainF (ks : Forest) : Prop :=
  ∀ (env : Env) (s : ScrubStack) (d : Nat) (rest W O : List Nat)
    (r c : Bool) (tg : String) (og : Nat),
    Forest.agrees env ks = true →
    (Forest.ids ks).Nodup →
    s.dentry_stack = d :: rest →
    s.pending_kicks = 1 →
    s.inflight = W ++ O →
    s.scrubs_in_progress = (W ++ O).length →
    s.est d = EntryState.expanding (Forest.roots ks) →
    s.info d = some ⟨r, c, tg, og⟩ →
    d ∉ Forest.ids ks →
    (∀ x ∈ Forest.ids ks, s.est x = EntryState.unstarted) →
    (∀ x ∈ Forest.ids ks, x ∉ rest) →
    (∀ x ∈ Forest.ids ks, x ∉ W ∧ x ∉ O) →
    (∀ x ∈ Forest.ids ks, x ∉ s.cbs) →
    (∀ x ∈ Forest.ids ks, s.info x = none) →
    ∃ n, n ≤ Forest.fuelF ks ∧
      (ScrubStack.iter env n s).dentry_stack = d :: rest ∧
      (ScrubStack.iter env n s).pending_kicks = 1 ∧
      (ScrubStack.iter env n s).inflight =
        (Forest.fileRoots ks).reverse ++ (W ++ O) ∧
      (ScrubStack.iter env n s).scrubs_in_progress =
        ((Forest.fileRoots ks).reverse ++ (W ++ O)).length ∧
      (ScrubStack.iter env n s).est d = EntryState.expanding [] ∧
      (∀ x ∈ Forest.dirTargets r ks, (ScrubStack.iter env n s).est x = EntryState.done) ∧
      (∀ x ∈ Forest.fileRoots ks, (ScrubStack.iter env n s).est x = EntryState.fileInFlight) ∧
      (∀ x, x ∉ Forest.dirTargets r ks → x ∉ Forest.fileRoots ks → x ≠ d →
        (ScrubStack.iter env n s).est x = s.est x) ∧
      (ScrubStack.iter env n s).fired = s.fired ∧
      (ScrubStack.iter env n s).cbs = s.cbs ∧
      (∀ x, x ∉ Forest.ids ks → (ScrubStack.iter env n s).info x = s.info x)

theorem ScrubStack.scrub_file_dentry_invA (env : Env) (s : ScrubStack) (dn : Nat)
    (h : ScrubStack.InvA env s) (hd : env.isDir dn = false)
    (hu : s.est dn = EntryState.unstarted) :
    ScrubStack.InvA env (s.scrub_file_dentry dn) := by
  obtain ⟨hnd, hlen, hifl, hfd, hlog⟩ := h
  refine ⟨hnd, ?_, ?_, ?_, ?_⟩
  · simp [ScrubStack.scrub_file_dentry, hlen]
  · intro x hx
    simp only [ScrubStack.scrub_file_dentry] at hx ⊢
    by_cases hxd : x = dn
    · simp [hxd]
    · rw [Function.update_noteq hxd] at hx
      exact List.mem_cons_of_mem _ (hifl x hx)
  · intro x hx
    simp only [ScrubStack.scrub_file_dentry] at hx ⊢
    have hx' := hfd x hx
    have hxd : x ≠ dn := by
      intro hh; rw [hh, hu] at hx'; cases hx'
    rw [Function.update_noteq hxd]
    exact hx'
  · intro x hx
    simp only [ScrubStack.scrub_file_dentry, List.mem_append, List.mem_singleton] at hx
    rcases hx with hx | hx
    · exact hlog x hx
    · rw [hx]; exact hd

theorem ScrubStack.kick_invA (env : Env) (s : ScrubStack)
    (h : ScrubStack.InvA env s) :
    ScrubStack.InvA env (ScrubStack.kick_off_scrubs env s) := by
  obtain ⟨hnd, hlen, hifl, hfd, hlog⟩ := h
  unfold ScrubStack.kick_off_scrubs
  split
  · exact ⟨hnd, hlen, hifl, hfd, hlog⟩
  next d rest hq =>
    split
    next hest =>
      -- top entry done: pop it and fire its callback
      refine ⟨?_, hlen, hifl, ?_, hlog⟩
      · simpa [ScrubStack.pop_dentry] using hnd.erase d
      · intro x hx
        simp only [ScrubStack.pop_dentry, List.mem_append] at hx
        rcases hx with hx | hx
        · exact hfd x hx
        · have : x = d := by
            by_cases hc : d ∈ s.cbs <;> simp [hc] at hx
            exact hx
          rw [this]; exact hest
    next hest =>
      -- top entry unstarted
      split
      next hdir =>
        refine ⟨hnd, hlen, ?_, ?_, hlog⟩
        · intro x hx
          dsimp only at hx ⊢
          by_cases hxd : x = d
          · rw [hxd, Function.update_same] at hx
            rcases hx with hx | hx <;> cases hx
          · rw [Function.update_noteq hxd] at hx
            exact hifl x hx
        · intro x hx
          dsimp only at hx ⊢
          have hx' := hfd x hx
          have hxd : x ≠ d := by
            intro hh; rw [hh, hest] at hx'; cases hx'
          rw [Function.update_noteq hxd]
          exact hx'
      next hdir =>
        exact ScrubStack.scrub_file_dentry_invA env s d
          ⟨hnd, hlen, hifl, hfd, hlog⟩ (Bool.not_eq_true _ ▸ hdir) hest
    · exact ⟨hnd, hlen, hifl, hfd, hlog⟩
    · exact ⟨hnd, hlen, hifl, hfd, hlog⟩
    next hest =>
      -- top entry expanding [] : wait for children or finalize
      split
      · exact ⟨hnd, hlen, hifl, hfd, hlog⟩
      · refine ⟨hnd, ?_, ?_, ?_, hlog⟩
        · simp [hlen]
        · intro x hx
          dsimp only at hx ⊢
          by_cases hxd : x = d
          · rw [hxd]; exact List.mem_cons_self _ _
          · rw [Function.update_noteq hxd] at hx
            exact List.mem_cons_of_mem _ (hifl x hx)
        · intro x hx
          dsimp only at hx ⊢
          have hx' := hfd x hx
          have hxd : x ≠ d := by
            intro hh; rw [hh, hest] at hx'; cases hx'
          rw [Function.update_noteq hxd]
          exact hx'
    next c cs hest =>
      -- top entry expanding (c :: cs)
      split
      next hskip =>
        refine ⟨hnd, hlen, ?_, ?_, hlog⟩
        · intro x hx
          dsimp only at hx ⊢
          by_cases hxd : x = d
          · rw [hxd, Function.update_same] at hx
            rcases hx with hx | hx <;> cases hx
          · rw [Function.update_noteq hxd] at hx
            exact hifl x hx
        · intro x hx
          dsimp only at hx ⊢
          have hx' := hfd x hx
          have hxd : x ≠ d := by
            intro hh; rw [hh, hest] at hx'; cases hx'
          rw [Function.update_noteq hxd]
          exact hx'
      next hskip =>
        push_neg at hskip
        obtain ⟨hc1, hc2⟩ := hskip
        split
        next hdir =>
          refine ⟨?_, hlen, ?_, ?_, hlog⟩
          · simpa [ScrubStack.push_dentry] using List.nodup_cons.mpr ⟨hc1, hnd⟩
          · intro x hx
            simp only [ScrubStack.push_dentry] at hx
            dsimp only at hx ⊢
            by_cases hxd : x = d
            · rw [hxd, Function.update_same] at hx
              rcases hx with hx | hx <;> cases hx
            · rw [Function.update_noteq hxd] at hx
              exact hifl x hx
          · intro x hx
            simp only [ScrubStack.push_dentry] at hx ⊢
            have hx' := hfd x hx
            have hxd : x ≠ d := by
              intro hh; rw [hh, hest] at hx'; cases hx'
            rw [Function.update_noteq hxd]
            exact hx'
        next hdir =>
          have hdn : d ≠ c := by
            intro hh
            exact hc1 (hh ▸ (hq ▸ List.mem_cons_self d rest))
          have h1 := ScrubStack.scrub_file_dentry_invA env s c
            ⟨hnd, hlen, hifl, hfd, hlog⟩ (Bool.not_eq_true _ ▸ hdir) hc2
          obtain ⟨g1, g2, g3, g4, g5⟩ := h1
          refine ⟨g1, g2, ?_, ?_, g5⟩
          · intro x hx
            dsimp only at hx ⊢
            by_cases hxd : x = d
            · rw [hxd, Function.update_same] at hx
              rcases hx with hx | hx <;> cases hx
            · rw [Function.update_noteq hxd] at hx
              exact g3 x hx
          · intro x hx
            dsimp only at hx ⊢
            have hx' := g4 x hx
            have hxd : x ≠ d := by
              intro hh
              rw [hh] at hx'
              rw [ScrubStack.scrub_file_dentry] at hx'
              dsimp only at hx'
              rw [Function.update_noteq hdn, hest] at hx'
              cases hx'
            rw [Function.update_noteq hxd]
            exact hx'

theorem ScrubStack.kick_at_rest (env : Env) (s : ScrubStack)
    (h : ScrubStack.InvA env s) :
    (ScrubStack.kick_off_scrubs env s).pending_kicks = 0 →
    (ScrubStack.kick_off_scrubs env s).scrubs_in_progress = 0 →
    (ScrubStack.kick_off_scrubs env s).dentry_stack = [] := by
  obtain ⟨hnd, hlen, hifl, hfd, hlog⟩ := h
  unfold ScrubStack.kick_off_scrubs
  split
  next hq => intro _ _; exact hq
  next d rest hq =>
    split
    next hest =>
      intro hp _
      simp [ScrubStack.pop_dentry] at hp
    next hest =>
      split
      next hdir =>
        intro hp _
        simp at hp
      next hdir =>
        intro _ hz
        simp [ScrubStack.scrub_file_dentry] at hz
    next hest =>
      intro _ hz
      have hl0 : s.inflight.length = 0 := by rw [← hlen]; exact hz
      have hnil : s.inflight = [] := List.eq_nil_of_length_eq_zero hl0
      have hd := hifl d (Or.inl hest)
      rw [hnil] at hd
      cases hd
    next hest =>
      intro _ hz
      have hl0 : s.inflight.length = 0 := by rw [← hlen]; exact hz
      have hnil : s.inflight = [] := List.eq_nil_of_length_eq_zero hl0
      have hd := hifl d (Or.inr hest)
      rw [hnil] at hd
      cases hd
    next hest =>
      split
      next hany =>
        intro _ hz
        have hl0 : s.inflight.length = 0 := by rw [← hlen]; exact hz
        have hnil : s.inflight = [] := List.eq_nil_of_length_eq_zero hl0
        rcases List.any_eq_true.mp hany with ⟨x, _, hx2⟩
        rw [hnil] at hx2
        simp at hx2
      next hany =>
        intro _ hz
        simp at hz
    next c cs hest =>
      split
      next hskip =>
        intro hp _
        simp at hp
      next hskip =>
        split
        next hdir =>
          intro hp _
          simp [ScrubStack.push_dentry] at hp
        next hdir =>
          intro hp _
          simp [ScrubStack.scrub_file_dentry] at hp

theorem ScrubStack.scrub_complete_invA (env : Env) (s : ScrubStack) (dn : Nat)
    (h : ScrubStack.InvA env s) :
    ScrubStack.InvA env (s.scrub_complete dn) := by
  obtain ⟨hnd, hlen, hifl, hfd, hlog⟩ := h
  unfold ScrubStack.scrub_complete
  split
  next hin =>
    refine ⟨hnd, ?_, ?_, ?_, hlog⟩
    · dsimp only
      rw [hlen, List.length_erase_of_mem hin]
    · intro x hx
      dsimp only at hx ⊢
      by_cases hxd : x = dn
      · rw [hxd, Function.update_same] at hx
        rcases hx with hx | hx <;> cases hx
      · rw [Function.update_noteq hxd] at hx
        exact (List.mem_erase_of_ne hxd).mpr (hifl x hx)
    · intro x hx
      dsimp only at hx ⊢
      by_cases hxd : x = dn
      · rw [hxd, Function.update_same]
      · rw [Function.update_noteq hxd]
        exact hfd x hx
  · exact ⟨hnd, hlen, hifl, hfd, hlog⟩

theorem ScrubStack.enqueue_invA (env : Env) (s : ScrubStack) (dn : Nat)
    (r c : Bool) (tg : String) (f top : Bool)
    (h : ScrubStack.InvA env s) :
    ScrubStack.InvA env (s.enqueue_dentry dn r c tg f top) := by
  obtain ⟨hnd, hlen, hifl, hfd, hlog⟩ := h
  unfold ScrubStack.enqueue_dentry
  split
  next hmem => exact ⟨hnd, hlen, hifl, hfd, hlog⟩
  next hmem =>
    refine ⟨?_, hlen, hifl, hfd, hlog⟩
    dsimp only
    split
    · exact List.nodup_cons.mpr ⟨hmem, hnd⟩
    · rw [List.nodup_append]
      refine ⟨hnd, List.nodup_singleton dn, ?_⟩
      intro a ha hb
      rw [List.mem_singleton] at hb
      exact hmem (hb ▸ ha)

theorem ScrubStack.enqueue_pending (s : ScrubStack) (dn : Nat) (r c : Bool)
    (tg : String) (f top : Bool) :
    (s.enqueue_dentry dn r c tg f top).pending_kicks = s.pending_kicks + 1 := by
  unfold ScrubStack.enqueue_dentry
  split <;> rfl

theorem SEvent.step_inv (env : Env) (e : SEvent) (s : ScrubStack)
    (h : ScrubStack.Inv env s) : ScrubStack.Inv env (e.step env s) := by
  obtain ⟨ha, h3⟩ := h
  cases e with
  | enqTop dn r c tg f =>
      refine ⟨ScrubStack.enqueue_invA env s dn r c tg f true ha, ?_⟩
      intro hp _
      simp only [SEvent.step, ScrubStack.enqueue_dentry_top] at hp
      rw [ScrubStack.enqueue_pending] at hp
      exact (Nat.succ_ne_zero _ hp).elim
  | enqBottom dn r c tg f =>
      refine ⟨ScrubStack.enqueue_invA env s dn r c tg f false ha, ?_⟩
      intro hp _
      simp only [SEvent.step, ScrubStack.enqueue_dentry_bottom] at hp
      rw [ScrubStack.enqueue_pending] at hp
      exact (Nat.succ_ne_zero _ hp).elim
  | kickFire =>
      simp only [SEvent.step]
      split
      next hp =>
        have ha' : ScrubStack.InvA env { s with pending_kicks := s.pending_kicks - 1 } := by
          obtain ⟨a1, a2, a3, a4, a5⟩ := ha
          exact ⟨a1, a2, a3, a4, a5⟩
        exact ⟨ScrubStack.kick_invA env _ ha',
               fun h1 h2 => ScrubStack.kick_at_rest env _ ha' h1 h2⟩
      · exact ⟨ha, h3⟩
  | complete dn =>
      refine ⟨ScrubStack.scrub_complete_invA env s dn ha, ?_⟩
      simp only [SEvent.step]
      unfold ScrubStack.scrub_complete
      split
      · intro hp
        dsimp only at hp
        exact (Nat.succ_ne_zero _ hp).elim
      · exact h3

theorem ScrubStack.steps_inv (env : Env) (evs : List SEvent) (s : ScrubStack)
    (h : ScrubStack.Inv env s) : ScrubStack.Inv env (ScrubStack.steps env evs s) := by
  induction evs generalizing s with
  | nil => exact h
  | cons e evs ih => exact ih _ (SEvent.step_inv env e s h)

theorem ScrubStack.initial_inv (env : Env) : ScrubStack.Inv env ScrubStack.initial := by
  refine ⟨⟨List.nodup_nil, rfl, ?_, ?_, ?_⟩, fun _ _ => rfl⟩
  · intro x hx
    rcases hx with h | h <;> exact EntryState.noConfusion h
  · intro x hx
    exact absurd hx (List.not_mem_nil x)
  · intro x hx
    exact absurd hx (List.not_mem_nil x)

theorem ScrubStack.reach_inv (env : Env) (evs : List SEvent) :
    ScrubStack.Inv env (ScrubStack.reach env evs) :=
  ScrubStack.steps_inv env evs ScrubStack.initial (ScrubStack.initial_inv env)

theorem ScrubStack.enqueue_fields (s : ScrubStack) (dn : Nat) (r c : Bool)
    (tg : String) (f top : Bool) :
    (s.enqueue_dentry dn r c tg f top).est = s.est ∧
    (s.enqueue_dentry dn r c tg f top).inflight = s.inflight ∧
    (s.enqueue_dentry dn r c tg f top).scrubs_in_progress = s.scrubs_in_progress ∧
    (s.enqueue_dentry dn r c tg f top).fired = s.fired ∧
    (s.enqueue_dentry dn r c tg f top).scrub_file_log = s.scrub_file_log := by
  unfold ScrubStack.enqueue_dentry
  split <;> exact ⟨rfl, rfl, rfl, rfl, rfl⟩

/-- C2: destroying the scheduler while the queue is non-empty or while
the in-progress counter is non-zero trips an assertion (modelled as
`none`); the destructor's assertions pass exactly when the scheduler is
at rest — empty `dentry_stack` and `scrubs_in_progress == 0`. -/
theorem destructor_checks_iff_at_rest :
    ∀ s : ScrubStack, s.destructor_checks = some () ↔
      (s.dentry_stack = [] ∧ s.scrubs_in_progress = 0) := by
  intro s
  unfold ScrubStack.destructor_checks
  split_ifs with h1 h2 <;> simp_all [List.isEmpty_iff]

/-- C9: `enqueue_dentry_top` and `enqueue_dentry_bottom` are extensionally
equal to the shared routine `enqueue_dentry` applied with the same
arguments and the insertion-end flag set to `true` and `false`
respectively. -/
theorem enqueue_wrappers_delegate :
    ∀ (s : ScrubStack) (dn : Nat) (r c : Bool) (tg : String) (f : Bool),
      s.enqueue_dentry_top dn r c tg f = s.enqueue_dentry dn r c tg f true ∧
      s.enqueue_dentry_bottom dn r c tg f = s.enqueue_dentry dn r c tg f false :=
  fun _ _ _ _ _ _ => ⟨rfl, rfl⟩

/-- C5: neither enqueue operation runs the drive loop synchronously: on
return the drive loop's state (per-entry scrub states, in-flight set,
in-progress counter, fired callbacks, file-scrub dispatch log) is
untouched and exactly one more single-shot continuation is scheduled on
the finisher; the scheduled continuation `C_KickOffScrubs::finish` has
`kick_off_scrubs` as its sole effect. -/
theorem enqueue_defers_drive_loop :
    ∀ (env : Env) (rr : Int) (s : ScrubStack) (dn : Nat) (r c : Bool)
      (tg : String) (f : Bool),
      (s.enqueue_dentry_top dn r c tg f).pending_kicks = s.pending_kicks + 1 ∧
      (s.enqueue_dentry_bottom dn r c tg f).pending_kicks = s.pending_kicks + 1 ∧
      (s.enqueue_dentry_top dn r c tg f).est = s.est ∧
      (s.enqueue_dentry_bottom dn r c tg f).est = s.est ∧
      (s.enqueue_dentry_top dn r c tg f).inflight = s.inflight ∧
      (s.enqueue_dentry_bottom dn r c tg f).inflight = s.inflight ∧
      (s.enqueue_dentry_top dn r c tg f).scrubs_in_progress = s.scrubs_in_progress ∧
      (s.enqueue_dentry_bottom dn r c tg f).scrubs_in_progress = s.scrubs_in_progress ∧
      (s.enqueue_dentry_top dn r c tg f).fired = s.fired ∧
      (s.enqueue_dentry_bottom dn r c tg f).fired = s.fired ∧
      (s.enqueue_dentry_top dn r c tg f).scrub_file_log = s.scrub_file_log ∧
      (s.enqueue_dentry_bottom dn r c tg f).scrub_file_log = s.scrub_file_log ∧
      C_KickOffScrubs_finish env rr s = ScrubStack.kick_off_scrubs env s := by
  intro env rr s dn r c tg f
  obtain ⟨t1, t2, t3, t4, t5⟩ := ScrubStack.enqueue_fields s dn r c tg f true
  obtain ⟨b1, b2, b3, b4, b5⟩ := ScrubStack.enqueue_fields s dn r c tg f false
  exact ⟨ScrubStack.enqueue_pending s dn r c tg f true,
         ScrubStack.enqueue_pending s dn r c tg f false,
         t1, b1, t2, b2, t3, b3, t4, b4, t5, b5, rfl⟩

/-- C3: in every reachable scheduler state the dentry stack holds no
duplicate entry, and enqueueing a dentry that is already queued never
inserts it a second time (the stack is unchanged — a no-op, not a silent
duplicate insertion). -/
theorem queue_membership_exclusive :
    (∀ (env : Env) (evs : List SEvent),
      (ScrubStack.reach env evs).dentry_stack.Nodup) ∧
    (∀ (s : ScrubStack) (dn : Nat) (r c : Bool) (tg : String) (f top : Bool),
      dn ∈ s.dentry_stack →
      (s.enqueue_dentry dn r c tg f top).dentry_stack = s.dentry_stack) := by
  constructor
  · intro env evs
    exact (ScrubStack.reach_inv env evs).1.1
  · intro s dn r c tg f top hmem
    unfold ScrubStack.enqueue_dentry
    rw [if_pos hmem]

/-- C3 witness: a duplicate-free reachable stack, and a concrete
re-enqueue of an already-queued dentry leaving the stack unchanged. -/
theorem queue_membership_exclusive_witness :
    (ScrubStack.reach envAllFiles [SEvent.enqTop 0 true false "" false]).dentry_stack.Nodup ∧
    (0 ∈ (ScrubStack.reach envAllFiles [SEvent.enqTop 0 true false "" false]).dentry_stack ∧
      ((ScrubStack.reach envAllFiles [SEvent.enqTop 0 true false "" false]).enqueue_dentry
          0 true false "" false true).dentry_stack =
        (ScrubStack.reach envAllFiles [SEvent.enqTop 0 true false "" false]).dentry_stack) :=
  ⟨queue_membership_exclusive.1 envAllFiles [SEvent.enqTop 0 true false "" false],
   by decide,
   queue_membership_exclusive.2 _ 0 true false "" false true (by decide)⟩

/-- C1 as stated is violated by the model: right after an enqueue, before
the deferred drive-loop continuation fires, `scrubs_in_progress` is zero
while the dentry stack is non-empty. -/
theorem in_progress_zero_counterexample :
    (ScrubStack.reach envAllFiles [SEvent.enqTop 0 true false "" true]).scrubs_in_progress = 0 ∧
    (ScrubStack.reach envAllFiles [SEvent.enqTop 0 true false "" true]).dentry_stack ≠ [] := by
  constructor <;> decide

/-- C1 (amended): in every reachable scheduler state in which
additionally no deferred drive-loop continuation is pending, a zero
in-progress counter forces an empty dentry stack. -/
theorem in_progress_zero_queue_empty :
    ∀ (env : Env) (evs : List SEvent),
      (ScrubStack.reach env evs).pending_kicks = 0 →
      (ScrubStack.reach env evs).scrubs_in_progress = 0 →
      (ScrubStack.reach env evs).dentry_stack = [] :=
  fun env evs h1 h2 => (ScrubStack.reach_inv env evs).2 h1 h2

/-- C1 witness: a full drain of a one-file scrub ends with no pending
continuation, a zero counter and an empty stack. -/
theorem in_progress_zero_queue_empty_witness :
    (ScrubStack.reach envAllFiles
        [SEvent.enqTop 0 true false "" true, SEvent.kickFire,
         SEvent.complete 0, SEvent.kickFire, SEvent.kickFire]).pending_kicks = 0 ∧
    (ScrubStack.reach envAllFiles
        [SEvent.enqTop 0 true false "" true, SEvent.kickFire,
         SEvent.complete 0, SEvent.kickFire, SEvent.kickFire]).scrubs_in_progress = 0 ∧
    (ScrubStack.reach envAllFiles
        [SEvent.enqTop 0 true false "" true, SEvent.kickFire,
         SEvent.complete 0, SEvent.kickFire, SEvent.kickFire]).dentry_stack = [] :=
  ⟨by decide, by decide,
   in_progress_zero_queue_empty envAllFiles
     [SEvent.enqTop 0 true false "" true, SEvent.kickFire,
      SEvent.complete 0, SEvent.kickFire, SEvent.kickFire] (by decide) (by decide)⟩

/-- C10: `scrub_file_dentry` requires its dentry's projected inode to be
a file, and the scheduler only ever dispatches it to such entries: in
every reachable state, every dentry in the file-scrub dispatch log is a
non-directory. -/
theorem scrub_file_dentry_only_on_files :
    ∀ (env : Env) (evs : List SEvent) (d : Nat),
      d ∈ (ScrubStack.reach env evs).scrub_file_log → env.isDir d = false :=
  fun env evs d hd => (ScrubStack.reach_inv env evs).1.2.2.2.2 d hd

/-- C10 witness: a concrete run that dispatches `scrub_file_dentry` on
dentry 0, which is indeed a file in its environment. -/
theorem scrub_file_dentry_only_on_files_witness :
    0 ∈ (ScrubStack.reach envAllFiles
        [SEvent.enqTop 0 true false "" true, SEvent.kickFire]).scrub_file_log ∧
    envAllFiles.isDir 0 = false :=
  ⟨by decide,
   scrub_file_dentry_only_on_files envAllFiles
     [SEvent.enqTop 0 true false "" true, SEvent.kickFire] 0 (by decide)⟩

/-- C7: invoking `scrub_dirfrag` on a fragment with outstanding child
verifications in flight and no further not-yet-queued children reports no
progress: the fragment and counter are unchanged and `added_children`,
`is_terminal` and `done` all remain false; the corresponding drive-loop
activation on such a blocked top entry is a no-op, and only a pending
child completion schedules the continuation that re-triggers the loop. -/
theorem scrub_dirfrag_blocked_no_progress :
    ∀ (kids : List FragChild) (inprog : Nat) (env : Env) (s : ScrubStack)
      (d x : Nat) (rest : List Nat),
      (∀ k ∈ kids, k.cstate ≠ ChildScrubState.unstarted) →
      (∃ k ∈ kids, k.cstate = ChildScrubState.outstanding) →
      s.dentry_stack = d :: rest →
      s.est d = EntryState.expanding [] →
      (env.children d).any (fun y => decide (y ∈ s.inflight)) = true →
      x ∈ s.inflight →
      scrub_dirfrag kids inprog = (kids, inprog, ⟨false, false, false⟩) ∧
      ScrubStack.kick_off_scrubs env s = s ∧
      (s.scrub_complete x).pending_kicks = s.pending_kicks + 1 := by
  intro kids inprog env s d x rest hall hout hq hest hany hx
  refine ⟨?_, ?_, ?_⟩
  · have hfind : kids.find? (fun k => k.cstate == ChildScrubState.unstarted) = none := by
      rw [List.find?_eq_none]
      intro k hk
      simp only [beq_iff_eq]
      exact hall k hk
    have hany' : kids.any (fun k => k.cstate == ChildScrubState.outstanding) = true := by
      rw [List.any_eq_true]
      obtain ⟨k, hk1, hk2⟩ := hout
      exact ⟨k, hk1, by simp [hk2]⟩
    unfold scrub_dirfrag
    rw [hfind, hany']
    rfl
  · unfold ScrubStack.kick_off_scrubs
    rw [hq]
    simp only [hest]
    rw [if_pos hany]
  · unfold ScrubStack.scrub_complete
    rw [if_pos hx]

/-- C7 witness: a concrete blocked fragment (one outstanding child, none
unstarted) and a concrete blocked scheduler state. -/
theorem scrub_dirfrag_blocked_no_progress_witness :
    scrub_dirfrag [⟨1, false, ChildScrubState.outstanding⟩] 1 =
      ([⟨1, false, ChildScrubState.outstanding⟩], 1, ⟨false, false, false⟩) ∧
    ScrubStack.kick_off_scrubs envSmall stateBlocked = stateBlocked ∧
    (stateBlocked.scrub_complete 1).pending_kicks = stateBlocked.pending_kicks + 1 :=
  scrub_dirfrag_blocked_no_progress
    [⟨1, false, ChildScrubState.outstanding⟩] 1 envSmall stateBlocked 0 1 []
    (by decide) ⟨⟨1, false, ChildScrubState.outstanding⟩, by decide, rfl⟩
    rfl (by decide) (by decide) (by decide)

/-- C8: if the next not-yet-scrubbed fragment of the inode is not
resident and complete, `get_next_cdir` issues an asynchronous fetch,
returns `false` (the caller must wait) and leaves `new_dir` unset; it
returns `true` exactly when there is no waiting to do — either a
complete fragment is handed back in `new_dir` or no unscrubbed fragment
remains. -/
theorem get_next_cdir_spec :
    ∀ (frags : List CDirModel) (f : CDirModel),
      (frags.find? (fun g => !g.scrubbed) = some f → f.complete = false →
        get_next_cdir frags = ⟨false, none, some f.frag_id⟩) ∧
      (frags.find? (fun g => !g.scrubbed) = some f → f.complete = true →
        get_next_cdir frags = ⟨true, some f.frag_id, none⟩) ∧
      (frags.find? (fun g => !g.scrubbed) = none →
        get_next_cdir frags = ⟨true, none, none⟩) ∧
      ((get_next_cdir frags).ret = false →
        (get_next_cdir frags).new_dir = none ∧ (get_next_cdir frags).fetch_issued ≠ none) ∧
      ((get_next_cdir frags).ret = true ↔
        ((∃ d, (get_next_cdir frags).new_dir = some d) ∨
          frags.find? (fun g => !g.scrubbed) = none)) ∧
      (∀ d, (get_next_cdir frags).new_dir = some d →
        ∃ g, frags.find? (fun g => !g.scrubbed) = some g ∧
          g.complete = true ∧ g.frag_id = d) := by
  intro frags f
  refine ⟨?_, ?_, ?_, ?_, ?_, ?_⟩
  · intro hf hc
    simp [get_next_cdir, hf, hc]
  · intro hf hc
    simp [get_next_cdir, hf, hc]
  · intro hf
    simp [get_next_cdir, hf]
  · rcases hf : frags.find? (fun g => !g.scrubbed) with _ | g
    · simp [get_next_cdir, hf]
    · rcases hc : g.complete with _ | _
      · simp [get_next_cdir, hf, hc]
      · simp [get_next_cdir, hf, hc]
  · rcases hf : frags.find? (fun g => !g.scrubbed) with _ | g
    · simp [get_next_cdir, hf]
    · rcases hc : g.complete with _ | _
      · simp [get_next_cdir, hf, hc]
      · simp [get_next_cdir, hf, hc]
  · intro d
    rcases hf : frags.find? (fun g => !g.scrubbed) with _ | g
    · simp [get_next_cdir, hf]
    · rcases hc : g.complete with _ | _
      · simp [get_next_cdir, hf, hc]
      · intro h
        refine ⟨g, hf, hc, ?_⟩
        simp [get_next_cdir, hf, hc] at h
        exact h

/-- C8 witness: a concrete inode whose first unscrubbed fragment is not
complete — the call reports blocked, leaves `new_dir` unset and issues
the fetch for that fragment. -/
theorem get_next_cdir_spec_witness :
    get_next_cdir [⟨5, false, false⟩, ⟨6, true, false⟩] = ⟨false, none, some 5⟩ ∧
    (get_next_cdir [⟨5, false, false⟩, ⟨6, true, false⟩]).ret = false :=
  ⟨(get_next_cdir_spec [⟨5, false, false⟩, ⟨6, true, false⟩] ⟨5, false, false⟩).1
      (by decide) (by decide),
   by decide⟩

theorem sublist_pair_of_cons {A B h : Nat} {t : List Nat}
    (hs : [B, A].Sublist (h :: t)) (hne : B ≠ h) : [B, A].Sublist t := by
  cases hs with
  | cons _ hs => exact hs
  | cons₂ _ hs => exact absurd rfl hne

theorem sublist_pair_head_ne {A B : Nat} {t : List Nat} (hAB : A ≠ B)
    (hs : [B, A].Sublist (A :: t)) (hnd : (A :: t).Nodup) : False := by
  cases hs with
  | cons _ hs =>
      have hA : A ∈ t := hs.subset (by simp)
      exact (List.nodup_cons.mp hnd).1 hA
  | cons₂ _ hs => exact hAB rfl

theorem SEvent.step_invA (env : Env) (e : SEvent) (s : ScrubStack)
    (h : ScrubStack.InvA env s) : ScrubStack.InvA env (e.step env s) := by
  cases e with
  | enqTop dn r c tg f => exact ScrubStack.enqueue_invA env s dn r c tg f true h
  | enqBottom dn r c tg f => exact ScrubStack.enqueue_invA env s dn r c tg f false h
  | kickFire =>
      simp only [SEvent.step]
      split
      · obtain ⟨a1, a2, a3, a4, a5⟩ := h
        exact ScrubStack.kick_invA env _ ⟨a1, a2, a3, a4, a5⟩
      · exact h
  | complete dn => exact ScrubStack.scrub_complete_invA env s dn h

theorem order_protected_kick (env : Env) (s : ScrubStack) (A B : Nat)
    (hAB : A ≠ B) (hnd : s.dentry_stack.Nodup)
    (hP : OrderProtected A B s) :
    OrderProtected A B (ScrubStack.kick_off_scrubs env s) := by
  obtain ⟨hP1, hP2⟩ := hP
  unfold ScrubStack.kick_off_scrubs
  split
  · exact ⟨hP1, hP2⟩
  next d rest hq =>
    have hdmem : d ∈ s.dentry_stack := hq ▸ List.mem_cons_self d rest
    have hAd : ∀ hB : B ∈ s.dentry_stack, A ≠ d := by
      intro hB hh
      obtain ⟨hsub, _, _⟩ := hP1 hB
      rw [hq, ← hh] at hsub
      rw [hq, ← hh] at hnd
      exact sublist_pair_head_ne hAB hsub hnd
    split
    next hest =>
      -- pop of a done top entry
      constructor
      · intro hB
        simp only [ScrubStack.pop_dentry, hq, List.erase_cons_head] at hB ⊢
        have hBs : B ∈ s.dentry_stack := hq ▸ List.mem_cons_of_mem d hB
        obtain ⟨hsub, hA, hAi⟩ := hP1 hBs
        have hBd : B ≠ d := by
          intro hh
          rw [hq] at hnd
          exact (List.nodup_cons.mp hnd).1 (hh ▸ hB)
        rw [hq] at hsub
        exact ⟨sublist_pair_of_cons hsub hBd, hA, hAi⟩
      · intro hB
        simp only [ScrubStack.pop_dentry, hq, List.erase_cons_head] at hB
        by_cases hBs : B ∈ s.dentry_stack
        · have hBd : B = d := by
            rw [hq] at hBs
            rcases List.mem_cons.mp hBs with hh | hh
            · exact hh
            · exact absurd hh hB
          rw [hBd]
          show s.est d ≠ EntryState.unstarted
          rw [hest]
          intro hh; cases hh
        · exact hP2 hBs
    next hest =>
      split
      next hdir =>
        -- unstarted directory: expand in place
        constructor
        · intro hB
          obtain ⟨hsub, hA, hAi⟩ := hP1 hB
          refine ⟨hsub, ?_, hAi⟩
          dsimp only
          rw [Function.update_noteq (hAd hB)]
          exact hA
        · intro hB
          have hBd : B ≠ d := fun hh => hB (hh ▸ hdmem)
          dsimp only
          rw [Function.update_noteq hBd]
          exact hP2 hB
      next hdir =>
        -- unstarted file at top: dispatch its verification
        constructor
        · intro hB
          obtain ⟨hsub, hA, hAi⟩ := hP1 hB
          simp only [ScrubStack.scrub_file_dentry] at hB ⊢
          refine ⟨hsub, ?_, ?_⟩
          · rw [Function.update_noteq (hAd hB)]
            exact hA
          · intro hh
            rcases List.mem_cons.mp hh with hh | hh
            · exact hAd hB hh
            · exact hAi hh
        · intro hB
          simp only [ScrubStack.scrub_file_dentry] at hB ⊢
          have hBd : B ≠ d := fun hh => hB (hh ▸ hdmem)
          rw [Function.update_noteq hBd]
          exact hP2 hB
    · exact ⟨hP1, hP2⟩
    · exact ⟨hP1, hP2⟩
    next hest =>
      split
      · exact ⟨hP1, hP2⟩
      · -- finalize: dispatch the container's own metadata verification
        constructor
        · intro hB
          obtain ⟨hsub, hA, hAi⟩ := hP1 hB
          refine ⟨hsub, ?_, ?_⟩
          · dsimp only
            rw [Function.update_noteq (hAd hB)]
            exact hA
          · dsimp only
            intro hh
            rcases List.mem_cons.mp hh with hh | hh
            · exact hAd hB hh
            · exact hAi hh
        · intro hB
          have hBd : B ≠ d := fun hh => hB (hh ▸ hdmem)
          dsimp only
          rw [Function.update_noteq hBd]
          exact hP2 hB
    next c cs hest =>
      split
      next hskip =>
        -- skip an already-queued or already-started child
        constructor
        · intro hB
          obtain ⟨hsub, hA, hAi⟩ := hP1 hB
          refine ⟨hsub, ?_, hAi⟩
          dsimp only
          rw [Function.update_noteq (hAd hB)]
          exact hA
        · intro hB
          have hBd : B ≠ d := fun hh => hB (hh ▸ hdmem)
          dsimp only
          rw [Function.update_noteq hBd]
          exact hP2 hB
      next hskip =>
        push_neg at hskip
        obtain ⟨hc1, hc2⟩ := hskip
        split
        next hdir =>
          -- push an unstarted directory child on top
          constructor
          · intro hB
            simp only [ScrubStack.push_dentry] at hB ⊢
            rcases List.mem_cons.mp hB with hBc | hBs
            · exfalso
              have hBns : B ∉ s.dentry_stack := hBc ▸ hc1
              exact hP2 hBns (hBc ▸ hc2)
            · obtain ⟨hsub, hA, hAi⟩ := hP1 hBs
              refine ⟨hsub.cons c, ?_, hAi⟩
              rw [Function.update_noteq (hAd hBs)]
              exact hA
          · intro hB
            simp only [ScrubStack.push_dentry] at hB ⊢
            have hBs : B ∉ s.dentry_stack := fun hh => hB (List.mem_cons_of_mem c hh)
            have hBd : B ≠ d := fun hh => hBs (hh ▸ hdmem)
            rw [Function.update_noteq hBd]
            exact hP2 hBs
        next hdir =>
          -- dispatch an unstarted file child
          constructor
          · intro hB
            obtain ⟨hsub, hA, hAi⟩ := hP1 hB
            have hAc : A ≠ c := by
              intro hh
              exact hc1 (hh ▸ hsub.subset (by simp))
            simp only [ScrubStack.scrub_file_dentry] at hB ⊢
            refine ⟨hsub, ?_, ?_⟩
            · rw [Function.update_noteq (hAd hB), Function.update_noteq hAc]
              exact hA
            · intro hh
              rcases List.mem_cons.mp hh with hh | hh
              · exact hAc hh
              · exact hAi hh
          · intro hB
            simp only [ScrubStack.scrub_file_dentry] at hB ⊢
            have hBd : B ≠ d := fun hh => hB (hh ▸ hdmem)
            rw [Function.update_noteq hBd]
            by_cases hBc : B = c
            · rw [hBc, Function.update_same]
              intro hh; cases hh
            · rw [Function.update_noteq hBc]
              exact hP2 hB

theorem ScrubStack.enqueue_top_stack (s : ScrubStack) (dn : Nat) (r c : Bool)
    (tg : String) (f : Bool) (h : dn ∉ s.dentry_stack) :
    (s.enqueue_dentry_top dn r c tg f).dentry_stack = dn :: s.dentry_stack := by
  unfold ScrubStack.enqueue_dentry_top ScrubStack.enqueue_dentry
  rw [if_neg h]
  simp

theorem order_protected_step (env : Env) (e : SEvent) (s : ScrubStack) (A B : Nat)
    (hAB : A ≠ B)
    (hdrv : e = SEvent.kickFire ∨ ∃ d, e = SEvent.complete d)
    (hnd : s.dentry_stack.Nodup)
    (hP : OrderProtected A B s) : OrderProtected A B (e.step env s) := by
  rcases hdrv with he | ⟨d, he⟩
  · subst he
    simp only [SEvent.step]
    split
    · exact order_protected_kick env _ A B hAB hnd hP
    · exact hP
  · subst he
    obtain ⟨hP1, hP2⟩ := hP
    simp only [SEvent.step]
    unfold ScrubStack.scrub_complete
    split
    next hin =>
      constructor
      · intro hB
        obtain ⟨hsub, hA, hAi⟩ := hP1 hB
        have hAd : A ≠ d := fun hh => hAi (hh ▸ hin)
        refine ⟨hsub, ?_, ?_⟩
        · dsimp only
          rw [Function.update_noteq hAd]
          exact hA
        · dsimp only
          intro hh
          exact hAi (List.mem_of_mem_erase hh)
      · intro hB
        dsimp only
        by_cases hBd : B = d
        · rw [hBd, Function.update_same]
          intro hh; cases hh
        · rw [Function.update_noteq hBd]
          exact hP2 hB
    · exact ⟨hP1, hP2⟩

theorem order_protected_steps (env : Env) (A B : Nat) (hAB : A ≠ B) :
    ∀ evs : List SEvent,
      (∀ e ∈ evs, e = SEvent.kickFire ∨ ∃ d, e = SEvent.complete d) →
      ∀ s : ScrubStack, ScrubStack.InvA env s → OrderProtected A B s →
      OrderProtected A B (ScrubStack.steps env evs s) := by
  intro evs
  induction evs with
  | nil => intro _ s _ hP; exact hP
  | cons e evs ih =>
      intro hdrv s ha hP
      exact ih (fun x hx => hdrv x (List.mem_cons_of_mem e hx)) _
        (SEvent.step_invA env e s ha)
        (order_protected_step env e s A B hAB (hdrv e (List.mem_cons_self e evs)) ha.1 hP)

/-- C6: after `enqueue_dentry_top A` followed by `enqueue_dentry_top B`,
for every subsequent sequence of drive-loop activations and completions,
as long as `B` is still queued it sits strictly above `A` on the stack —
so every drive-loop activation, which only ever examines the top of the
stack, examines `B` strictly before `A` — and the lower-priority entry
`A` has not begun any verification step (its scrub state is still
`unstarted` and it has no verification in flight). -/
theorem top_enqueue_examined_first :
    ∀ (env : Env) (s : ScrubStack) (A B : Nat) (rA cA : Bool) (tA : String)
      (fA : Bool) (rB cB : Bool) (tB : String) (fB : Bool) (evs : List SEvent),
      ScrubStack.InvA env s →
      A ∉ s.dentry_stack → B ∉ s.dentry_stack → A ≠ B →
      s.est A = EntryState.unstarted → A ∉ s.inflight →
      (∀ e ∈ evs, e = SEvent.kickFire ∨ ∃ d, e = SEvent.complete d) →
      B ∈ (ScrubStack.steps env evs
          ((s.enqueue_dentry_top A rA cA tA fA).enqueue_dentry_top B rB cB tB fB)).dentry_stack →
      [B, A].Sublist (ScrubStack.steps env evs
          ((s.enqueue_dentry_top A rA cA tA fA).enqueue_dentry_top B rB cB tB fB)).dentry_stack ∧
      (ScrubStack.steps env evs
          ((s.enqueue_dentry_top A rA cA tA fA).enqueue_dentry_top B rB cB tB fB)).est A =
        EntryState.unstarted ∧
      A ∉ (ScrubStack.steps env evs
          ((s.enqueue_dentry_top A rA cA tA fA).enqueue_dentry_top B rB cB tB fB)).inflight := by
  intro env s A B rA cA tA fA rB cB tB fB evs ha hA hB hAB hAu hAi hdrv hBmem
  have h1stack : (s.enqueue_dentry_top A rA cA tA fA).dentry_stack = A :: s.dentry_stack :=
    ScrubStack.enqueue_top_stack s A rA cA tA fA hA
  obtain ⟨e1, e2, _, _, _⟩ := ScrubStack.enqueue_fields s A rA cA tA fA true
  have hB1 : B ∉ (s.enqueue_dentry_top A rA cA tA fA).dentry_stack := by
    rw [h1stack]
    intro hh
    rcases List.mem_cons.mp hh with hh | hh
    · exact hAB hh.symm
    · exact hB hh
  have h2stack :
      ((s.enqueue_dentry_top A rA cA tA fA).enqueue_dentry_top B rB cB tB fB).dentry_stack =
        B :: A :: s.dentry_stack := by
    rw [ScrubStack.enqueue_top_stack _ B rB cB tB fB hB1, h1stack]
  obtain ⟨f1, f2, _, _, _⟩ :=
    ScrubStack.enqueue_fields (s.enqueue_dentry_top A rA cA tA fA) B rB cB tB fB true
  have ha2 : ScrubStack.InvA env
      ((s.enqueue_dentry_top A rA cA tA fA).enqueue_dentry_top B rB cB tB fB) :=
    ScrubStack.enqueue_invA env _ B rB cB tB fB true
      (ScrubStack.enqueue_invA env s A rA cA tA fA true ha)
  have hP2 : OrderProtected A B
      ((s.enqueue_dentry_top A rA cA tA fA).enqueue_dentry_top B rB cB tB fB) := by
    constructor
    · intro _
      refine ⟨?_, ?_, ?_⟩
      · rw [h2stack]
        exact List.Sublist.cons₂ B (List.Sublist.cons₂ A (List.nil_sublist _))
      · show ((s.enqueue_dentry_top A rA cA tA fA).enqueue_dentry B rB cB tB fB true).est A =
          EntryState.unstarted
        rw [f1]
        show (s.enqueue_dentry A rA cA tA fA true).est A = EntryState.unstarted
        rw [e1]
        exact hAu
      · show A ∉ ((s.enqueue_dentry_top A rA cA tA fA).enqueue_dentry B rB cB tB fB true).inflight
        rw [f2]
        show A ∉ (s.enqueue_dentry A rA cA tA fA true).inflight
        rw [e2]
        exact hAi
    · intro hh
      exact absurd (h2stack ▸ List.mem_cons_self B (A :: s.dentry_stack)) hh
  exact (order_protected_steps env A B hAB evs hdrv _ ha2 hP2).1 hBmem

/-- C6 witness: two top enqueues on the fresh scheduler; with no further
events, `B = 1` sits above `A = 0`, which is still unstarted with nothing
in flight. -/
theorem top_enqueue_examined_first_witness :
    [1, 0].Sublist (ScrubStack.steps envAllFiles []
        ((ScrubStack.initial.enqueue_dentry_top 0 true false "" true).enqueue_dentry_top
          1 true false "" true)).dentry_stack ∧
    (ScrubStack.steps envAllFiles []
        ((ScrubStack.initial.enqueue_dentry_top 0 true false "" true).enqueue_dentry_top
          1 true false "" true)).est 0 = EntryState.unstarted ∧
    0 ∉ (ScrubStack.steps envAllFiles []
        ((ScrubStack.initial.enqueue_dentry_top 0 true false "" true).enqueue_dentry_top
          1 true false "" true)).inflight :=
  top_enqueue_examined_first envAllFiles ScrubStack.initial 0 1 true false "" true
    true false "" true []
    (ScrubStack.initial_inv envAllFiles).1
    (by decide) (by decide) (by decide) (by decide) (by decide)
    (by intro e he; exact absurd he (List.not_mem_nil e))
    (by decide)

theorem ScrubStack.iter_add (env : Env) (a b : Nat) (s : ScrubStack) :
    ScrubStack.iter env (a + b) s = ScrubStack.iter env b (ScrubStack.iter env a s) := by
  induction a generalizing s with
  | zero => simp [ScrubStack.iter]
  | succ a ih =>
      have h1 : a + 1 + b = (a + b) + 1 := by omega
      rw [h1]
      show ScrubStack.iter env (a + b) (ScrubStack.dstep env s) = _
      rw [ih]
      rfl

theorem ScrubStack.iter_fix (env : Env) (s : ScrubStack)
    (h : ScrubStack.dstep env s = s) :
    ∀ n, ScrubStack.iter env n s = s := by
  intro n
  induction n with
  | zero => rfl
  | succ n ih =>
      show ScrubStack.iter env n (ScrubStack.dstep env s) = s
      rw [h]
      exact ih

theorem ScrubStack.dstep_kick (env : Env) (s : ScrubStack) (p : Nat)
    (hp : s.pending_kicks = p + 1) :
    ScrubStack.dstep env s =
      ScrubStack.kick_off_scrubs env { s with pending_kicks := p } := by
  unfold ScrubStack.dstep
  rw [if_pos (by omega)]
  rw [hp]
  rfl

theorem ScrubStack.dstep_complete (env : Env) (s : ScrubStack) (x : Nat)
    (l : List Nat) (hp : s.pending_kicks = 0) (hl : s.inflight = x :: l) :
    ScrubStack.dstep env s = s.scrub_complete x := by
  unfold ScrubStack.dstep
  rw [if_neg (by omega), hl]

theorem ScrubStack.kick_expand (env : Env) (s : ScrubStack) (d : Nat)
    (rest : List Nat) (r c : Bool) (tg : String) (og : Nat)
    (hq : s.dentry_stack = d :: rest)
    (hest : s.est d = EntryState.unstarted)
    (hdir : env.isDir d = true)
    (hinfo : s.info d = some ⟨r, c, tg, og⟩) :
    ScrubStack.kick_off_scrubs env s =
      { s with
          est := Function.update s.est d
            (EntryState.expanding (if r || c then env.children d else []))
          pending_kicks := s.pending_kicks + 1 } := by
  unfold ScrubStack.kick_off_scrubs
  rw [hq]
  simp only [hest, hdir, hinfo]
  rfl

theorem ScrubStack.kick_file_top (env : Env) (s : ScrubStack) (d : Nat)
    (rest : List Nat)
    (hq : s.dentry_stack = d :: rest)
    (hest : s.est d = EntryState.unstarted)
    (hdir : env.isDir d = false) :
    ScrubStack.kick_off_scrubs env s = s.scrub_file_dentry d := by
  unfold ScrubStack.kick_off_scrubs
  rw [hq]
  simp only [hest, hdir]
  rfl

theorem ScrubStack.kick_pop (env : Env) (s : ScrubStack) (d : Nat)
    (rest : List Nat)
    (hq : s.dentry_stack = d :: rest)
    (hest : s.est d = EntryState.done) :
    ScrubStack.kick_off_scrubs env s =
      { s with
          dentry_stack := rest
          fired := s.fired ++ (if d ∈ s.cbs then [d] else [])
          cbs := s.cbs.erase d
          pending_kicks := s.pending_kicks + 1 } := by
  unfold ScrubStack.kick_off_scrubs
  rw [hq]
  simp only [hest]
  simp [ScrubStack.pop_dentry, hq]

theorem ScrubStack.kick_blocked (env : Env) (s : ScrubStack) (d : Nat)
    (rest : List Nat)
    (hq : s.dentry_stack = d :: rest)
    (hest : s.est d = EntryState.expanding [])
    (hany : (env.children d).any (fun x => decide (x ∈ s.inflight)) = true) :
    ScrubStack.kick_off_scrubs env s = s := by
  unfold ScrubStack.kick_off_scrubs
  rw [hq]
  simp only [hest]
  rw [if_pos hany]

theorem ScrubStack.kick_finalize (env : Env) (s : ScrubStack) (d : Nat)
    (rest : List Nat)
    (hq : s.dentry_stack = d :: rest)
    (hest : s.est d = EntryState.expanding [])
    (hany : (env.children d).any (fun x => decide (x ∈ s.inflight)) = false) :
    ScrubStack.kick_off_scrubs env s =
      { s with
          est := Function.update s.est d EntryState.finalizing
          inflight := d :: s.inflight
          scrubs_in_progress := s.scrubs_in_progress + 1 } := by
  unfold ScrubStack.kick_off_scrubs
  rw [hq]
  simp only [hest]
  rw [if_neg (by rw [hany]; intro hh; cases hh)]

theorem ScrubStack.kick_push (env : Env) (s : ScrubStack) (d c : Nat)
    (cs rest : List Nat) (r cc : Bool) (tg : String) (og : Nat)
    (hq : s.dentry_stack = d :: rest)
    (hest : s.est d = EntryState.expanding (c :: cs))
    (hc1 : c ∉ s.dentry_stack)
    (hc2 : s.est c = EntryState.unstarted)
    (hcdir : env.isDir c = true)
    (hinfo : s.info d = some ⟨r, cc, tg, og⟩)
    (hcinfo : s.info c = none) :
    ScrubStack.kick_off_scrubs env s =
      { s with
          dentry_stack := c :: s.dentry_stack
          est := Function.update s.est d (EntryState.expanding cs)
          info := Function.update s.info c (some ⟨r, false, tg, og⟩)
          pending_kicks := s.pending_kicks + 1 } := by
  unfold ScrubStack.kick_off_scrubs
  rw [hq]
  simp only [hest]
  rw [if_neg (by push_neg; exact ⟨hq ▸ hc1, hc2⟩)]
  rw [if_pos hcdir]
  simp only [hinfo, hcinfo]
  simp [ScrubStack.push_dentry, hq]

theorem ScrubStack.kick_dispatch (env : Env) (s : ScrubStack) (d c : Nat)
    (cs rest : List Nat)
    (hq : s.dentry_stack = d :: rest)
    (hest : s.est d = EntryState.expanding (c :: cs))
    (hc1 : c ∉ s.dentry_stack)
    (hc2 : s.est c = EntryState.unstarted)
    (hcdir : env.isDir c = false) :
    ScrubStack.kick_off_scrubs env s =
      { s with
          est := Function.update
            (Function.update s.est c EntryState.fileInFlight) d
            (EntryState.expanding cs)
          inflight := c :: s.inflight
          scrubs_in_progress := s.scrubs_in_progress + 1
          scrub_file_log := s.scrub_file_log ++ [c]
          pending_kicks := s.pending_kicks + 1 } := by
  unfold ScrubStack.kick_off_scrubs
  rw [hq]
  simp only [hest]
  rw [if_neg (by push_neg; refine ⟨?_, hc2⟩; rw [← hq]; exact hc1)]
  rw [if_neg (by rw [hcdir]; intro hh; cases hh)]
  simp [ScrubStack.scrub_file_dentry, hq]

theorem ScrubStack.kick_empty (env : Env) (s : ScrubStack)
    (hq : s.dentry_stack = []) :
    ScrubStack.kick_off_scrubs env s = s := by
  unfold ScrubStack.kick_off_scrubs
  rw [hq]

theorem ScrubStack.scrub_complete_eq (s : ScrubStack) (x : Nat)
    (hx : x ∈ s.inflight) :
    s.scrub_complete x =
      { s with
          est := Function.update s.est x EntryState.done
          inflight := s.inflight.erase x
          scrubs_in_progress := s.scrubs_in_progress - 1
          pending_kicks := s.pending_kicks + 1 } := by
  unfold ScrubStack.scrub_complete
  rw [if_pos hx]

theorem FsTree.root_mem_ids : ∀ t : FsTree, FsTree.root t ∈ FsTree.ids t
  | FsTree.file i => by simp [FsTree.root, FsTree.ids]
  | FsTree.dir i ks => by simp [FsTree.root, FsTree.ids]

mutual
theorem FsTree.targets_subset : ∀ (r c : Bool) (t : FsTree) (x : Nat),
    x ∈ FsTree.targets r c t → x ∈ FsTree.ids t
  | r, c, FsTree.file i, x => by
      intro hx
      simpa [FsTree.targets, FsTree.ids] using hx
  | r, c, FsTree.dir i ks, x => by
      intro hx
      simp only [FsTree.targets, List.mem_cons] at hx
      rcases hx with hx | hx
      · simp [FsTree.ids, hx]
      · rcases hh : (r || c) with _ | _
        · rw [hh] at hx; simp at hx
        · rw [hh] at hx
          simp only [if_true] at hx
          have := Forest.targetsF_subset r ks x hx
          simp [FsTree.ids, this]

theorem Forest.targetsF_subset : ∀ (r : Bool) (ks : Forest) (x : Nat),
    x ∈ Forest.targets r ks → x ∈ Forest.ids ks
  | r, Forest.nil, x => by intro hx; simp [Forest.targets] at hx
  | r, Forest.cons t ts, x => by
      intro hx
      simp only [Forest.targets, List.mem_append] at hx
      simp only [Forest.ids, List.mem_append]
      rcases hx with hx | hx
      · exact Or.inl (FsTree.targets_subset r false t x hx)
      · exact Or.inr (Forest.targetsF_subset r ts x hx)
end

theorem Forest.targets_split : ∀ (r : Bool) (ks : Forest) (x : Nat),
    x ∈ Forest.targets r ks ↔
      (x ∈ Forest.dirTargets r ks ∨ x ∈ Forest.fileRoots ks)
  | r, Forest.nil, x => by
      simp [Forest.targets, Forest.dirTargets, Forest.fileRoots]
  | r, Forest.cons (FsTree.file i) ts, x => by
      simp only [Forest.targets, FsTree.targets, Forest.dirTargets,
        Forest.fileRoots, List.mem_append, List.mem_cons, List.mem_singleton]
      rw [Forest.targets_split r ts x]
      tauto
  | r, Forest.cons (FsTree.dir j ks0) ts, x => by
      simp only [Forest.targets, Forest.dirTargets, Forest.fileRoots,
        List.mem_append]
      rw [Forest.targets_split r ts x]
      tauto

theorem Forest.roots_subset : ∀ (ks : Forest) (x : Nat),
    x ∈ Forest.roots ks → x ∈ Forest.ids ks
  | Forest.nil, x => by simp [Forest.roots]
  | Forest.cons t ts, x => by
      simp only [Forest.roots, Forest.ids, List.mem_cons, List.mem_append]
      rintro (hx | hx)
      · left; rw [hx]; exact FsTree.root_mem_ids t
      · right; exact Forest.roots_subset ts x hx

theorem Forest.fileRoots_subset : ∀ (ks : Forest) (x : Nat),
    x ∈ Forest.fileRoots ks → x ∈ Forest.roots ks
  | Forest.nil, x => by simp [Forest.fileRoots]
  | Forest.cons (FsTree.file i) ts, x => by
      simp only [Forest.fileRoots, Forest.roots, FsTree.root, List.mem_cons]
      rintro (hx | hx)
      · exact Or.inl hx
      · exact Or.inr (Forest.fileRoots_subset ts x hx)
  | Forest.cons (FsTree.dir j ks0) ts, x => by
      simp only [Forest.fileRoots, Forest.roots, List.mem_cons]
      intro hx
      exact Or.inr (Forest.fileRoots_subset ts x hx)

theorem Forest.dirTargets_subset : ∀ (r : Bool) (ks : Forest) (x : Nat),
    x ∈ Forest.dirTargets r ks → x ∈ Forest.ids ks
  | r, Forest.nil, x => by simp [Forest.dirTargets]
  | r, Forest.cons (FsTree.file i) ts, x => by
      simp only [Forest.dirTargets, Forest.ids, List.mem_append]
      intro hx
      exact Or.inr (Forest.dirTargets_subset r ts x hx)
  | r, Forest.cons (FsTree.dir j ks0) ts, x => by
      simp only [Forest.dirTargets, Forest.ids, List.mem_append]
      rintro (hx | hx)
      · exact Or.inl (FsTree.targets_subset r false (FsTree.dir j ks0) x hx)
      · exact Or.inr (Forest.dirTargets_subset r ts x hx)

theorem Forest.fuelF_bound : ∀ ks : Forest,
    Forest.fuelF ks + 2 * (Forest.fileRoots ks).length ≤ Forest.fuel ks
  | Forest.nil => by simp [Forest.fuelF, Forest.fileRoots, Forest.fuel]
  | Forest.cons (FsTree.file i) ts => by
      have := Forest.fuelF_bound ts
      simp only [Forest.fuelF, Forest.fileRoots, Forest.fuel, FsTree.fuel,
        List.length_cons]
      omega
  | Forest.cons (FsTree.dir j ks0) ts => by
      have := Forest.fuelF_bound ts
      simp only [Forest.fuelF, Forest.fileRoots, Forest.fuel]
      omega

theorem FsTree.agrees_file (env : Env) (i : Nat)
    (h : FsTree.agrees env (FsTree.file i) = true) : env.isDir i = false := by
  simpa [FsTree.agrees] using h

theorem FsTree.agrees_dir (env : Env) (i : Nat) (ks : Forest)
    (h : FsTree.agrees env (FsTree.dir i ks) = true) :
    env.isDir i = true ∧ env.children i = Forest.roots ks ∧
      Forest.agrees env ks = true := by
  simp only [FsTree.agrees, Bool.and_eq_true, beq_iff_eq] at h
  exact ⟨h.1.1, h.1.2, h.2⟩

theorem Forest.agrees_cons (env : Env) (t : FsTree) (ts : Forest)
    (h : Forest.agrees env (Forest.cons t ts) = true) :
    FsTree.agrees env t = true ∧ Forest.agrees env ts = true := by
  simpa [Forest.agrees, Bool.and_eq_true] using h

theorem flush_files :
    ∀ (L : List Nat) (env : Env) (d : Nat) (rest O : List Nat) (s : ScrubStack),
      s.dentry_stack = d :: rest →
      s.est d = EntryState.expanding [] →
      s.pending_kicks = 1 →
      s.inflight = L ++ O →
      s.scrubs_in_progress = (L ++ O).length →
      (∀ x ∈ L, x ∈ env.children d) →
      (∀ x ∈ O, x ∉ env.children d) →
      (∀ x ∈ L, x ≠ d) →
      ∃ n, n ≤ 2 * L.length ∧
        (ScrubStack.iter env n s).dentry_stack = d :: rest ∧
        (ScrubStack.iter env n s).pending_kicks = 1 ∧
        (ScrubStack.iter env n s).inflight = O ∧
        (ScrubStack.iter env n s).scrubs_in_progress = O.length ∧
        (∀ x ∈ L, (ScrubStack.iter env n s).est x = EntryState.done) ∧
        (∀ x, x ∉ L → (ScrubStack.iter env n s).est x = s.est x) ∧
        (ScrubStack.iter env n s).fired = s.fired ∧
        (ScrubStack.iter env n s).cbs = s.cbs ∧
        (∀ x, (ScrubStack.iter env n s).info x = s.info x) := by
  intro L env d rest O
  induction L with
  | nil =>
      intro s hq hest hp hinfl hlen _ _ _
      refine ⟨0, by simp, hq, hp, by simpa using hinfl, by simpa using hlen,
        ?_, ?_, rfl, rfl, ?_⟩
      · intro x hx; cases hx
      · intro x _; rfl
      · intro x; rfl
  | cons x L' ih =>
      intro s hq hest hp hinfl hlen hL hO hne
      have hxd : x ≠ d := hne x (List.mem_cons_self x L')
      have h1 : ScrubStack.dstep env s = { s with pending_kicks := 0 } := by
        rw [ScrubStack.dstep_kick env s 0 hp]
        exact ScrubStack.kick_blocked env _ d rest hq hest
          (by
            dsimp only
            rw [List.any_eq_true]
            refine ⟨x, hL x (List.mem_cons_self x L'), ?_⟩
            rw [decide_eq_true_iff, hinfl]
            exact List.mem_cons_self _ _)
      have h2 : ScrubStack.dstep env { s with pending_kicks := 0 } =
          { s with
              est := Function.update s.est x EntryState.done
              inflight := L' ++ O
              scrubs_in_progress := (L' ++ O).length
              pending_kicks := 1 } := by
        rw [ScrubStack.dstep_complete env _ x (L' ++ O) rfl
          (by dsimp only; exact hinfl)]
        rw [ScrubStack.scrub_complete_eq _ x
          (by dsimp only; rw [hinfl]; exact List.mem_cons_self _ _)]
        dsimp only
        rw [hinfl, hlen]
        simp [List.length_cons]
      have h12 : ScrubStack.iter env 2 s =
          { s with
              est := Function.update s.est x EntryState.done
              inflight := L' ++ O
              scrubs_in_progress := (L' ++ O).length
              pending_kicks := 1 } := by
        show ScrubStack.dstep env (ScrubStack.dstep env s) = _
        rw [h1, h2]
      obtain ⟨n', hn', c1, c2, c3, c4, c5, c6, c7, c8, c9⟩ :=
        ih { s with
              est := Function.update s.est x EntryState.done
              inflight := L' ++ O
              scrubs_in_progress := (L' ++ O).length
              pending_kicks := 1 }
          hq (by dsimp only; rw [Function.update_noteq (Ne.symm hxd)]; exact hest)
          rfl rfl rfl
          (fun y hy => hL y (List.mem_cons_of_mem x hy))
          hO
          (fun y hy => hne y (List.mem_cons_of_mem x hy))
      refine ⟨2 + n', by simp [List.length_cons]; omega, ?_, ?_, ?_, ?_, ?_, ?_, ?_, ?_, ?_⟩ <;>
        rw [ScrubStack.iter_add env 2 n' s, h12]
      · exact c1
      · exact c2
      · exact c3
      · exact c4
      · intro y hy
        rcases List.mem_cons.mp hy with hy | hy
        · by_cases hyL : y ∈ L'
          · exact c5 y hyL
          · rw [c6 y hyL]
            dsimp only
            rw [hy, Function.update_same]
        · exact c5 y hy
      · intro y hy
        have hyx : y ≠ x := fun hh => hy (hh ▸ List.mem_cons_self x L')
        have hyL : y ∉ L' := fun hh => hy (List.mem_cons_of_mem x hh)
        rw [c6 y hyL]
        dsimp only
        rw [Function.update_noteq hyx]
      · exact c7
      · exact c8
      · intro y
        exact c9 y

theorem ScrubStack.iter_one (env : Env) (s : ScrubStack) :
    ScrubStack.iter env 1 s = ScrubStack.dstep env s := rfl

theorem drain_file (i : Nat) : DrainT (FsTree.file i) := by
  intro env s rest O r c tg og hag hnd hq hp hinfl hlen hest hrest hO hcbs hinfoN hroot
  have hdir : env.isDir i = false := FsTree.agrees_file env i hag
  have hesti : s.est i = EntryState.unstarted := hest i (by simp [FsTree.ids])
  have h1 : ScrubStack.iter env 1 s =
      { s with
          pending_kicks := 0
          est := Function.update s.est i EntryState.fileInFlight
          inflight := i :: s.inflight
          scrubs_in_progress := s.scrubs_in_progress + 1
          scrub_file_log := s.scrub_file_log ++ [i] } := by
    rw [ScrubStack.iter_one, ScrubStack.dstep_kick env s 0 hp,
      ScrubStack.kick_file_top env { s with pending_kicks := 0 } i rest hq hesti hdir]
    rfl
  have h2 : ScrubStack.iter env 2 s =
      { s with
          pending_kicks := 1
          est := Function.update s.est i EntryState.done
          scrub_file_log := s.scrub_file_log ++ [i] } := by
    have h21 : (2 : Nat) = 1 + 1 := rfl
    rw [h21, ScrubStack.iter_add env 1 1 s, h1, ScrubStack.iter_one]
    rw [ScrubStack.dstep_complete env
      { s with
          pending_kicks := 0
          est := Function.update s.est i EntryState.fileInFlight
          inflight := i :: s.inflight
          scrubs_in_progress := s.scrubs_in_progress + 1
          scrub_file_log := s.scrub_file_log ++ [i] } i s.inflight rfl rfl]
    rw [ScrubStack.scrub_complete_eq _ i (List.mem_cons_self _ _)]
    simp [Function.update_idem]
  have h3 : ScrubStack.iter env 3 s =
      { s with
          dentry_stack := rest
          pending_kicks := 1
          est := Function.update s.est i EntryState.done
          fired := s.fired ++ (if i ∈ s.cbs then [i] else [])
          cbs := s.cbs.erase i
          scrub_file_log := s.scrub_file_log ++ [i] } := by
    have h31 : (3 : Nat) = 2 + 1 := rfl
    rw [h31, ScrubStack.iter_add env 2 1 s, h2, ScrubStack.iter_one]
    rw [ScrubStack.dstep_kick env
      { s with
          pending_kicks := 1
          est := Function.update s.est i EntryState.done
          scrub_file_log := s.scrub_file_log ++ [i] } 0 rfl]
    dsimp only
    rw [ScrubStack.kick_pop env
      { s with
          pending_kicks := 0
          est := Function.update s.est i EntryState.done
          scrub_file_log := s.scrub_file_log ++ [i] } i rest hq
      (by dsimp only; rw [Function.update_same])]
  refine ⟨3, le_refl 3, ?_⟩
  rw [h3]
  refine ⟨rfl, rfl, hinfl, hlen, ?_, ?_, rfl, rfl, ?_⟩
  · intro x hx
    have hxi : x = i := by simpa [FsTree.targets] using hx
    subst hxi
    show Function.update s.est x EntryState.done x = _
    rw [Function.update_same]
  · intro x hx
    have hxi : x ≠ i := by
      intro hh
      exact hx (by rw [hh]; simp [FsTree.targets])
    show Function.update s.est i EntryState.done x = _
    rw [Function.update_noteq hxi]
  · intro x _
    rfl

theorem drain_nil : DrainF Forest.nil := by
  intro env s d rest W O r c tg og hag hnd hq hp hinfl hlen hestd hinfo hd hest hrest hWO hcbs hinfoN
  refine ⟨0, Nat.le_refl 0, hq, hp, ?_, ?_, ?_, ?_, ?_, ?_, rfl, rfl, ?_⟩
  · show s.inflight = (Forest.fileRoots Forest.nil).reverse ++ (W ++ O)
    simpa [Forest.fileRoots] using hinfl
  · show s.scrubs_in_progress = ((Forest.fileRoots Forest.nil).reverse ++ (W ++ O)).length
    simpa [Forest.fileRoots] using hlen
  · show s.est d = EntryState.expanding []
    simpa [Forest.roots] using hestd
  · intro x hx
    simp [Forest.dirTargets] at hx
  · intro x hx
    simp [Forest.fileRoots] at hx
  · intro x _ _ _
    rfl
  · intro x _
    rfl

theorem dir_finish :
    ∀ (env : Env) (s : ScrubStack) (i : Nat) (rest O L : List Nat),
      s.dentry_stack = i :: rest →
      s.est i = EntryState.expanding [] →
      s.pending_kicks = 1 →
      s.inflight = L ++ O →
      s.scrubs_in_progress = (L ++ O).length →
      (∀ x ∈ L, x ∈ env.children i) →
      (∀ x ∈ O, x ∉ env.children i) →
      (∀ x ∈ L, x ≠ i) →
      ∃ n, n ≤ 2 * L.length + 3 ∧
        (ScrubStack.iter env n s).dentry_stack = rest ∧
        (ScrubStack.iter env n s).pending_kicks = 1 ∧
        (ScrubStack.iter env n s).inflight = O ∧
        (ScrubStack.iter env n s).scrubs_in_progress = O.length ∧
        (∀ x, x = i ∨ x ∈ L → (ScrubStack.iter env n s).est x = EntryState.done) ∧
        (∀ x, x ≠ i → x ∉ L → (ScrubStack.iter env n s).est x = s.est x) ∧
        (ScrubStack.iter env n s).fired =
          s.fired ++ (if i ∈ s.cbs then [i] else []) ∧
        (ScrubStack.iter env n s).cbs = s.cbs.erase i ∧
        (∀ x, (ScrubStack.iter env n s).info x = s.info x) := by
  intro env s i rest O L hq hesti hp hinfl hlen hL hO hne
  have hiL : i ∉ L := fun hh => hne i hh rfl
  obtain ⟨nfl, hnfl, c1, c2, c3, c4, c5, c6, c7, c8, c9⟩ :=
    flush_files L env i rest O s hq hesti hp hinfl hlen hL hO hne
  have estI : (ScrubStack.iter env nfl s).est i = EntryState.expanding [] := by
    rw [c6 i hiL]
    exact hesti
  have hany : (env.children i).any
      (fun y => decide (y ∈ (ScrubStack.iter env nfl s).inflight)) = false := by
    rw [c3]
    rw [List.any_eq_false]
    intro y hy
    simp only [decide_eq_true_eq]
    intro hyO
    exact hO y hyO hy
  have h4 : ScrubStack.iter env (nfl + 1) s =
      { ScrubStack.iter env nfl s with
          pending_kicks := 0
          est := Function.update (ScrubStack.iter env nfl s).est i EntryState.finalizing
          inflight := i :: (ScrubStack.iter env nfl s).inflight
          scrubs_in_progress := (ScrubStack.iter env nfl s).scrubs_in_progress + 1 } := by
    rw [ScrubStack.iter_add env nfl 1 s, ScrubStack.iter_one]
    rw [ScrubStack.dstep_kick env (ScrubStack.iter env nfl s) 0 (by rw [c2])]
    rw [ScrubStack.kick_finalize env
      { ScrubStack.iter env nfl s with pending_kicks := 0 } i rest
      (by dsimp only; exact c1) (by dsimp only; exact estI)
      (by dsimp only; exact hany)]
  have h5 : ScrubStack.iter env (nfl + 2) s =
      { ScrubStack.iter env nfl s with
          pending_kicks := 1
          est := Function.update (ScrubStack.iter env nfl s).est i EntryState.done
          inflight := (ScrubStack.iter env nfl s).inflight
          scrubs_in_progress := (ScrubStack.iter env nfl s).scrubs_in_progress } := by
    have hfe : nfl + 2 = (nfl + 1) + 1 := rfl
    rw [hfe, ScrubStack.iter_add env (nfl + 1) 1 s, ScrubStack.iter_one, h4]
    rw [ScrubStack.dstep_complete env
      { ScrubStack.iter env nfl s with
          pending_kicks := 0
          est := Function.update (ScrubStack.iter env nfl s).est i EntryState.finalizing
          inflight := i :: (ScrubStack.iter env nfl s).inflight
          scrubs_in_progress := (ScrubStack.iter env nfl s).scrubs_in_progress + 1 }
      i (ScrubStack.iter env nfl s).inflight rfl rfl]
    rw [ScrubStack.scrub_complete_eq _ i (List.mem_cons_self _ _)]
    simp [Function.update_idem]
  have h6 : ScrubStack.iter env (nfl + 3) s =
      { ScrubStack.iter env nfl s with
          dentry_stack := rest
          pending_kicks := 1
          est := Function.update (ScrubStack.iter env nfl s).est i EntryState.done
          fired := (ScrubStack.iter env nfl s).fired ++
            (if i ∈ (ScrubStack.iter env nfl s).cbs then [i] else [])
          cbs := (ScrubStack.iter env nfl s).cbs.erase i } := by
    have hfe : nfl + 3 = (nfl + 2) + 1 := rfl
    rw [hfe, ScrubStack.iter_add env (nfl + 2) 1 s, ScrubStack.iter_one, h5]
    rw [ScrubStack.dstep_kick env
      { ScrubStack.iter env nfl s with
          pending_kicks := 1
          est := Function.update (ScrubStack.iter env nfl s).est i EntryState.done
          inflight := (ScrubStack.iter env nfl s).inflight
          scrubs_in_progress := (ScrubStack.iter env nfl s).scrubs_in_progress }
      0 rfl]
    rw [ScrubStack.kick_pop env
      { ScrubStack.iter env nfl s with
          pending_kicks := 0
          est := Function.update (ScrubStack.iter env nfl s).est i EntryState.done
          inflight := (ScrubStack.iter env nfl s).inflight
          scrubs_in_progress := (ScrubStack.iter env nfl s).scrubs_in_progress }
      i rest (by dsimp only; exact c1) (by dsimp only; rw [Function.update_same])]
  refine ⟨nfl + 3, by omega, ?_⟩
  rw [h6]
  refine ⟨rfl, rfl, c3, c4, ?_, ?_, ?_, ?_, ?_⟩
  · intro x hx
    show Function.update (ScrubStack.iter env nfl s).est i EntryState.done x = _
    rcases hx with hx | hx
    · subst hx
      rw [Function.update_same]
    · by_cases hxi : x = i
      · subst hxi
        rw [Function.update_same]
      · rw [Function.update_noteq hxi]
        exact c5 x hx
  · intro x hxi hxL
    show Function.update (ScrubStack.iter env nfl s).est i EntryState.done x = _
    rw [Function.update_noteq hxi]
    exact c6 x hxL
  · show (ScrubStack.iter env nfl s).fired ++ _ = _
    rw [c7, c8]
  · show (ScrubStack.iter env nfl s).cbs.erase i = _
    rw [c8]
  · intro x
    show (ScrubStack.iter env nfl s).info x = s.info x
    exact c9 x

mutual

theorem drainT_holds : ∀ t : FsTree, DrainT t
  | FsTree.file i => drain_file i
  | FsTree.dir i ks => by
      intro env s rest O r c tg og hag hnd hq hp hinfl hlen hest hrest hO hcbs hinfoN hroot
      obtain ⟨hdir, hchild, hagF⟩ := FsTree.agrees_dir env i ks hag
      have hids : FsTree.ids (FsTree.dir i ks) = i :: Forest.ids ks := rfl
      have hiks : i ∉ Forest.ids ks := by
        have hh := hnd; rw [hids] at hh; exact (List.nodup_cons.mp hh).1
      have hndks : (Forest.ids ks).Nodup := by
        have hh := hnd; rw [hids] at hh; exact (List.nodup_cons.mp hh).2
      have hesti : s.est i = EntryState.unstarted :=
        hest i (by rw [hids]; exact List.mem_cons_self _ _)
      have hOchild : ∀ y ∈ O, y ∉ env.children i := by
        intro y hy hyc
        rw [hchild] at hyc
        have hyids : y ∈ FsTree.ids (FsTree.dir i ks) := by
          rw [hids]
          exact List.mem_cons_of_mem _ (Forest.roots_subset ks y hyc)
        exact hO y hyids hy
      rcases hrc : (r || c) with _ | _
      · -- local-only scrub of the directory
        have h1 : ScrubStack.iter env 1 s =
            { s with
                pending_kicks := 1
                est := Function.update s.est i (EntryState.expanding []) } := by
          rw [ScrubStack.iter_one, ScrubStack.dstep_kick env s 0 hp]
          rw [ScrubStack.kick_expand env { s with pending_kicks := 0 } i rest r c tg og
            hq hesti hdir hroot]
          rw [hrc]
          rfl
        obtain ⟨nfin, hnfin, e1, e2, e3, e4, e5, e6, e7, e8, e9⟩ :=
          dir_finish env
            { s with
                pending_kicks := 1
                est := Function.update s.est i (EntryState.expanding []) }
            i rest O [] hq (by dsimp only; rw [Function.update_same]) rfl
            (by dsimp only; exact hinfl) (by dsimp only; exact hlen)
            (by intro x hx; cases hx) hOchild (by intro x hx; cases hx)
        have hcomp : ScrubStack.iter env (1 + nfin) s =
            ScrubStack.iter env nfin
              { s with
                  pending_kicks := 1
                  est := Function.update s.est i (EntryState.expanding []) } := by
          rw [ScrubStack.iter_add env 1 nfin s, h1]
        refine ⟨1 + nfin, ?_, ?_⟩
        · simp only [FsTree.fuel]
          simp only [List.length_nil] at hnfin
          omega
        rw [hcomp]
        refine ⟨e1, e2, e3, e4, ?_, ?_, ?_, ?_, ?_⟩
        · intro x hx
          have hxi : x = i := by simpa [FsTree.targets, hrc] using hx
          subst hxi
          exact e5 x (Or.inl rfl)
        · intro x hx
          have hxi : x ≠ i := by
            intro hh
            exact hx (by rw [hh]; simp [FsTree.targets, hrc])
          have := e6 x hxi (List.not_mem_nil x)
          rw [this]
          dsimp only
          rw [Function.update_noteq hxi]
        · exact e7.trans rfl
        · exact e8.trans rfl
        · intro x _
          exact (e9 x).trans rfl
      · -- recursive or children-only scrub: expand, drain children, finish
        have h1 : ScrubStack.iter env 1 s =
            { s with
                pending_kicks := 1
                est := Function.update s.est i
                  (EntryState.expanding (Forest.roots ks)) } := by
          rw [ScrubStack.iter_one, ScrubStack.dstep_kick env s 0 hp]
          rw [ScrubStack.kick_expand env { s with pending_kicks := 0 } i rest r c tg og
            hq hesti hdir hroot]
          rw [hchild, hrc]
          rfl
        obtain ⟨nF, hnF, d1, d2, d3, d4, d5, d6, d7, d8, d9, d10, d11⟩ :=
          drainF_holds ks env
            { s with
                pending_kicks := 1
                est := Function.update s.est i (EntryState.expanding (Forest.roots ks)) }
            i rest [] O r c tg og hagF hndks hq rfl
            (by dsimp only; exact hinfl) (by dsimp only; exact hlen)
            (by dsimp only; rw [Function.update_same]) hroot hiks
            (by
              intro x hx
              dsimp only
              rw [Function.update_noteq (by intro hh; subst hh; exact hiks hx)]
              exact hest x (by rw [hids]; exact List.mem_cons_of_mem _ hx))
            (fun x hx => hrest x (by rw [hids]; exact List.mem_cons_of_mem _ hx))
            (fun x hx => ⟨List.not_mem_nil x, hO x (by rw [hids]; exact List.mem_cons_of_mem _ hx)⟩)
            (by
              intro x hx
              exact hcbs x (by rw [hids]; exact List.mem_cons_of_mem _ hx)
                (by intro hh; rw [hh] at hx; exact hiks hx))
            (by
              intro x hx
              exact hinfoN x (by rw [hids]; exact List.mem_cons_of_mem _ hx)
                (by intro hh; rw [hh] at hx; exact hiks hx))
        obtain ⟨nfin, hnfin, e1, e2, e3, e4, e5, e6, e7, e8, e9⟩ :=
          dir_finish env
            (ScrubStack.iter env nF
              { s with
                  pending_kicks := 1
                  est := Function.update s.est i (EntryState.expanding (Forest.roots ks)) })
            i rest O ((Forest.fileRoots ks).reverse) d1 d5 d2 d3 d4
            (by
              intro x hx
              rw [List.mem_reverse] at hx
              rw [hchild]
              exact Forest.fileRoots_subset ks x hx)
            hOchild
            (by
              intro x hx
              rw [List.mem_reverse] at hx
              intro hh
              rw [hh] at hx
              exact hiks (Forest.roots_subset ks i (Forest.fileRoots_subset ks i hx)))
        have hcomp : ScrubStack.iter env (1 + nF + nfin) s =
            ScrubStack.iter env nfin
              (ScrubStack.iter env nF
                { s with
                    pending_kicks := 1
                    est := Function.update s.est i
                      (EntryState.expanding (Forest.roots ks)) }) := by
          have ha : 1 + nF + nfin = 1 + (nF + nfin) := by omega
          rw [ha, ScrubStack.iter_add env 1 (nF + nfin) s, h1,
            ScrubStack.iter_add env nF nfin]
        refine ⟨1 + nF + nfin, ?_, ?_⟩
        · have hb := Forest.fuelF_bound ks
          simp only [FsTree.fuel]
          rw [List.length_reverse] at hnfin
          omega
        rw [hcomp]
        refine ⟨e1, e2, e3, e4, ?_, ?_, ?_, ?_, ?_⟩
        · intro x hx
          have hx' : x = i ∨ x ∈ Forest.targets r ks := by
            simpa [FsTree.targets, hrc] using hx
          rcases hx' with hx' | hx'
          · exact e5 x (Or.inl hx')
          · rcases (Forest.targets_split r ks x).mp hx' with hxd | hxf
            · by_cases hxL : x ∈ (Forest.fileRoots ks).reverse
              · exact e5 x (Or.inr hxL)
              · have hxi : x ≠ i := by
                  intro hh
                  rw [hh] at hxd
                  exact hiks (Forest.dirTargets_subset r ks i hxd)
                exact (e6 x hxi hxL).trans (d6 x hxd)
            · exact e5 x (Or.inr (List.mem_reverse.mpr hxf))
        · intro x hx
          have hxi : x ≠ i := by
            intro hh
            exact hx (by rw [hh]; simp [FsTree.targets, hrc])
          have hxt : x ∉ Forest.targets r ks := by
            intro hh
            exact hx (by simp [FsTree.targets, hrc]; exact Or.inr hh)
          have hxD : x ∉ Forest.dirTargets r ks :=
            fun hh => hxt ((Forest.targets_split r ks x).mpr (Or.inl hh))
          have hxF : x ∉ Forest.fileRoots ks :=
            fun hh => hxt ((Forest.targets_split r ks x).mpr (Or.inr hh))
          have hxL : x ∉ (Forest.fileRoots ks).reverse :=
            fun hh => hxF (List.mem_reverse.mp hh)
          rw [e6 x hxi hxL, d8 x hxD hxF hxi]
          dsimp only
          rw [Function.update_noteq hxi]
        · exact e7.trans (by rw [d9, d10]; rfl)
        · exact e8.trans (by rw [d10]; rfl)
        · intro x hx
          have hxks : x ∉ Forest.ids ks :=
            fun hh => hx (by rw [hids]; exact List.mem_cons_of_mem _ hh)
          exact (e9 x).trans ((d11 x hxks).trans rfl)

theorem drainF_holds : ∀ ks : Forest, DrainF ks
  | Forest.nil => drain_nil
  | Forest.cons (FsTree.file f) ts => by
      intro env s d rest W O r c tg og hag hnd hq hp hinfl hlen hestd hinfo hd hest hrest hWO hcbs hinfoN
      obtain ⟨hagT, hagF⟩ := Forest.agrees_cons env (FsTree.file f) ts hag
      have hfdir : env.isDir f = false := FsTree.agrees_file env f hagT
      have hids : Forest.ids (Forest.cons (FsTree.file f) ts) = f :: Forest.ids ts := rfl
      have hfm : f ∈ Forest.ids (Forest.cons (FsTree.file f) ts) := by
        rw [hids]; exact List.mem_cons_self _ _
      have hfts : f ∉ Forest.ids ts := by
        have hh := hnd; rw [hids] at hh; exact (List.nodup_cons.mp hh).1
      have hndts : (Forest.ids ts).Nodup := by
        have hh := hnd; rw [hids] at hh; exact (List.nodup_cons.mp hh).2
      have hdf : d ≠ f := fun hh => hd (by rw [hh]; exact hfm)
      have hestf : s.est f = EntryState.unstarted := hest f hfm
      have hfstack : f ∉ s.dentry_stack := by
        rw [hq]
        intro hh
        rcases List.mem_cons.mp hh with hh | hh
        · exact hd (by rw [← hh]; exact hfm)
        · exact hrest f hfm hh
      have h1 : ScrubStack.iter env 1 s =
          { s with
              pending_kicks := 1
              est := Function.update (Function.update s.est f EntryState.fileInFlight) d
                (EntryState.expanding (Forest.roots ts))
              inflight := f :: s.inflight
              scrubs_in_progress := s.scrubs_in_progress + 1
              scrub_file_log := s.scrub_file_log ++ [f] } := by
        rw [ScrubStack.iter_one, ScrubStack.dstep_kick env s 0 hp]
        rw [ScrubStack.kick_dispatch env { s with pending_kicks := 0 } d f
          (Forest.roots ts) rest hq hestd hfstack hestf hfdir]
      obtain ⟨nF, hnF, d1, d2, d3, d4, d5, d6, d7, d8, d9, d10, d11⟩ :=
        drainF_holds ts env
          { s with
              pending_kicks := 1
              est := Function.update (Function.update s.est f EntryState.fileInFlight) d
                (EntryState.expanding (Forest.roots ts))
              inflight := f :: s.inflight
              scrubs_in_progress := s.scrubs_in_progress + 1
              scrub_file_log := s.scrub_file_log ++ [f] }
          d rest (f :: W) O r c tg og hagF hndts hq rfl
          (by dsimp only; rw [hinfl]; rfl)
          (by dsimp only; rw [hlen]; simp)
          (by dsimp only; rw [Function.update_same]) hinfo
          (fun hh => hd (by rw [hids]; exact List.mem_cons_of_mem _ hh))
          (by
            intro x hx
            dsimp only
            have hxd : x ≠ d := by
              intro hh
              rw [hh] at hx
              exact hd (by rw [hids]; exact List.mem_cons_of_mem _ hx)
            have hxf : x ≠ f := by
              intro hh
              rw [hh] at hx
              exact hfts hx
            rw [Function.update_noteq hxd, Function.update_noteq hxf]
            exact hest x (by rw [hids]; exact List.mem_cons_of_mem _ hx))
          (fun x hx => hrest x (by rw [hids]; exact List.mem_cons_of_mem _ hx))
          (by
            intro x hx
            have hw := hWO x (by rw [hids]; exact List.mem_cons_of_mem _ hx)
            refine ⟨?_, hw.2⟩
            intro hh
            rcases List.mem_cons.mp hh with hh | hh
            · rw [hh] at hx
              exact hfts hx
            · exact hw.1 hh)
          (fun x hx => hcbs x (by rw [hids]; exact List.mem_cons_of_mem _ hx))
          (fun x hx => hinfoN x (by rw [hids]; exact List.mem_cons_of_mem _ hx))
      have hcomp : ScrubStack.iter env (1 + nF) s =
          ScrubStack.iter env nF
            { s with
                pending_kicks := 1
                est := Function.update (Function.update s.est f EntryState.fileInFlight) d
                  (EntryState.expanding (Forest.roots ts))
                inflight := f :: s.inflight
                scrubs_in_progress := s.scrubs_in_progress + 1
                scrub_file_log := s.scrub_file_log ++ [f] } := by
        rw [ScrubStack.iter_add env 1 nF s, h1]
      refine ⟨1 + nF, ?_, ?_⟩
      · simp only [Forest.fuelF]
        omega
      rw [hcomp]
      refine ⟨d1, d2, ?_, ?_, d5, ?_, ?_, ?_, ?_, ?_, ?_⟩
      · refine d3.trans ?_
        show _ = (Forest.fileRoots (Forest.cons (FsTree.file f) ts)).reverse ++ (W ++ O)
        simp [Forest.fileRoots, List.reverse_cons, List.append_assoc]
      · refine d4.trans ?_
        show _ = ((Forest.fileRoots (Forest.cons (FsTree.file f) ts)).reverse ++ (W ++ O)).length
        simp [Forest.fileRoots]
      · intro x hx
        exact d6 x (by simpa [Forest.dirTargets] using hx)
      · intro x hx
        have hx' : x = f ∨ x ∈ Forest.fileRoots ts := by
          simpa [Forest.fileRoots] using hx
        rcases hx' with hx' | hx'
        · subst hx'
          have hfD : x ∉ Forest.dirTargets r ts :=
            fun hh => hfts (Forest.dirTargets_subset r ts x hh)
          have hfF : x ∉ Forest.fileRoots ts :=
            fun hh => hfts (Forest.roots_subset ts x (Forest.fileRoots_subset ts x hh))
          rw [d8 x hfD hfF (Ne.symm hdf)]
          dsimp only
          rw [Function.update_noteq (Ne.symm hdf), Function.update_same]
        · exact d7 x hx'
      · intro x hxD hxF hxd
        have hxf : x ≠ f := by
          intro hh
          exact hxF (by rw [hh]; simp [Forest.fileRoots])
        have hxD' : x ∉ Forest.dirTargets r ts := by
          intro hh
          exact hxD (by simpa [Forest.dirTargets] using hh)
        have hxF' : x ∉ Forest.fileRoots ts := by
          intro hh
          exact hxF (by simp [Forest.fileRoots]; exact Or.inr hh)
        rw [d8 x hxD' hxF' hxd]
        dsimp only
        rw [Function.update_noteq hxd, Function.update_noteq hxf]
      · exact d9
      · exact d10
      · intro x hx
        have hxts : x ∉ Forest.ids ts :=
          fun hh => hx (by rw [hids]; exact List.mem_cons_of_mem _ hh)
        exact d11 x hxts
  | Forest.cons (FsTree.dir j ks0) ts => by
      intro env s d rest W O r c tg og hag hnd hq hp hinfl hlen hestd hinfo hd hest hrest hWO hcbs hinfoN
      obtain ⟨hagT, hagF⟩ := Forest.agrees_cons env (FsTree.dir j ks0) ts hag
      have hids : Forest.ids (Forest.cons (FsTree.dir j ks0) ts) =
          FsTree.ids (FsTree.dir j ks0) ++ Forest.ids ts := rfl
      have hnd2 := hnd
      rw [hids] at hnd2
      have hnd1 : (FsTree.ids (FsTree.dir j ks0)).Nodup := (List.nodup_append.mp hnd2).1
      have hndts : (Forest.ids ts).Nodup := (List.nodup_append.mp hnd2).2.1
      have hdisj : ∀ x ∈ FsTree.ids (FsTree.dir j ks0), x ∉ Forest.ids ts :=
        List.disjoint_of_nodup_append hnd2
      have hjm : j ∈ Forest.ids (Forest.cons (FsTree.dir j ks0) ts) := by
        rw [hids]
        exact List.mem_append_left _ (FsTree.root_mem_ids (FsTree.dir j ks0))
      have hmemT : ∀ x ∈ FsTree.ids (FsTree.dir j ks0),
          x ∈ Forest.ids (Forest.cons (FsTree.dir j ks0) ts) := by
        intro x hx
        rw [hids]
        exact List.mem_append_left _ hx
      have hmemF : ∀ x ∈ Forest.ids ts,
          x ∈ Forest.ids (Forest.cons (FsTree.dir j ks0) ts) := by
        intro x hx
        rw [hids]
        exact List.mem_append_right _ hx
      have hdj : d ≠ j := fun hh => hd (by rw [hh]; exact hjm)
      have hestj : s.est j = EntryState.unstarted := hest j hjm
      have hjstack : j ∉ s.dentry_stack := by
        rw [hq]
        intro hh
        rcases List.mem_cons.mp hh with hh | hh
        · exact hd (by rw [← hh]; exact hjm)
        · exact hrest j hjm hh
      have hjinfo : s.info j = none := hinfoN j hjm
      have h1 : ScrubStack.iter env 1 s =
          { s with
              dentry_stack := j :: s.dentry_stack
              pending_kicks := 1
              est := Function.update s.est d (EntryState.expanding (Forest.roots ts))
              info := Function.update s.info j (some ⟨r, false, tg, og⟩) } := by
        rw [ScrubStack.iter_one, ScrubStack.dstep_kick env s 0 hp]
        rw [ScrubStack.kick_push env { s with pending_kicks := 0 } d j
          (Forest.roots ts) rest r c tg og hq hestd hjstack hestj
          (FsTree.agrees_dir env j ks0 hagT).1 hinfo hjinfo]
      obtain ⟨nT, hnT, t1, t2, t3, t4, t5, t6, t7, t8, t9⟩ :=
        drainT_holds (FsTree.dir j ks0) env
          { s with
              dentry_stack := j :: s.dentry_stack
              pending_kicks := 1
              est := Function.update s.est d (EntryState.expanding (Forest.roots ts))
              info := Function.update s.info j (some ⟨r, false, tg, og⟩) }
          (d :: rest) (W ++ O) r false tg og hagT hnd1
          (by dsimp only; rw [hq]; rfl) rfl
          (by dsimp only; exact hinfl) (by dsimp only; exact hlen)
          (by
            intro x hx
            dsimp only
            have hxd : x ≠ d := by
              intro hh
              rw [hh] at hx
              exact hd (hmemT d hx)
            rw [Function.update_noteq hxd]
            exact hest x (hmemT x hx))
          (by
            intro x hx
            intro hh
            rcases List.mem_cons.mp hh with hh | hh
            · rw [hh] at hx
              exact hd (hmemT d hx)
            · exact hrest x (hmemT x hx) hh)
          (by
            intro x hx
            intro hh
            rcases List.mem_append.mp hh with hh | hh
            · exact (hWO x (hmemT x hx)).1 hh
            · exact (hWO x (hmemT x hx)).2 hh)
          (fun x hx _ => hcbs x (hmemT x hx))
          (by
            intro x hx hxj
            have hxj2 : x ≠ j := hxj
            dsimp only
            rw [Function.update_noteq hxj2]
            exact hinfoN x (hmemT x hx))
          (by dsimp only [FsTree.root]; rw [Function.update_same])
      obtain ⟨nF, hnF, d1, d2, d3, d4, d5, d6, d7, d8, d9, d10, d11⟩ :=
        drainF_holds ts env
          (ScrubStack.iter env nT
            { s with
                dentry_stack := j :: s.dentry_stack
                pending_kicks := 1
                est := Function.update s.est d (EntryState.expanding (Forest.roots ts))
                info := Function.update s.info j (some ⟨r, false, tg, og⟩) })
          d rest W O r c tg og hagF hndts t1 t2 t3 t4
          (by
            rw [t6 d (fun hh => hd (hmemT d (FsTree.targets_subset r false _ d hh)))]
            dsimp only
            rw [Function.update_same])
          (by
            rw [t9 d (fun hh => hd (hmemT d hh))]
            dsimp only
            rw [Function.update_noteq hdj]
            exact hinfo)
          (fun hh => hd (hmemF d hh))
          (by
            intro x hx
            rw [t6 x (fun hh => hdisj x (FsTree.targets_subset r false _ x hh) hx)]
            dsimp only
            have hxd : x ≠ d := by
              intro hh
              rw [hh] at hx
              exact hd (hmemF d hx)
            rw [Function.update_noteq hxd]
            exact hest x (hmemF x hx))
          (fun x hx => hrest x (hmemF x hx))
          (fun x hx => hWO x (hmemF x hx))
          (by
            intro x hx
            rw [t8]
            intro hh
            exact hcbs x (hmemF x hx) (List.mem_of_mem_erase hh))
          (by
            intro x hx
            rw [t9 x (fun hh => hdisj x hh hx)]
            dsimp only
            rw [Function.update_noteq (by
              intro hh
              rw [hh] at hx
              exact hdisj j (FsTree.root_mem_ids (FsTree.dir j ks0)) hx)]
            exact hinfoN x (hmemF x hx))
      have hcomp : ScrubStack.iter env (1 + nT + nF) s =
          ScrubStack.iter env nF
            (ScrubStack.iter env nT
              { s with
                  dentry_stack := j :: s.dentry_stack
                  pending_kicks := 1
                  est := Function.update s.est d (EntryState.expanding (Forest.roots ts))
                  info := Function.update s.info j (some ⟨r, false, tg, og⟩) }) := by
        have ha : 1 + nT + nF = 1 + (nT + nF) := by omega
        rw [ha, ScrubStack.iter_add env 1 (nT + nF) s, h1,
          ScrubStack.iter_add env nT nF]
      refine ⟨1 + nT + nF, ?_, ?_⟩
      · simp only [Forest.fuelF]
        omega
      rw [hcomp]
      refine ⟨d1, d2, ?_, ?_, d5, ?_, ?_, ?_, ?_, ?_, ?_⟩
      · exact d3
      · exact d4
      · intro x hx
        have hx' : x ∈ FsTree.targets r false (FsTree.dir j ks0) ∨
            x ∈ Forest.dirTargets r ts := by
          simpa [Forest.dirTargets] using hx
        rcases hx' with hx' | hx'
        · have hxts : x ∉ Forest.ids ts :=
            hdisj x (FsTree.targets_subset r false _ x hx')
          have hxD : x ∉ Forest.dirTargets r ts :=
            fun hh => hxts (Forest.dirTargets_subset r ts x hh)
          have hxF : x ∉ Forest.fileRoots ts :=
            fun hh => hxts (Forest.roots_subset ts x (Forest.fileRoots_subset ts x hh))
          have hxd : x ≠ d := by
            intro hh
            rw [hh] at hx'
            exact hd (hmemT d (FsTree.targets_subset r false _ d hx'))
          exact (d8 x hxD hxF hxd).trans (t5 x hx')
        · exact d6 x hx'
      · intro x hx
        exact d7 x hx
      · intro x hxD hxF hxd
        have hxT : x ∉ FsTree.targets r false (FsTree.dir j ks0) := by
          intro hh
          exact hxD (by simp [Forest.dirTargets]; exact Or.inl hh)
        have hxD' : x ∉ Forest.dirTargets r ts := by
          intro hh
          exact hxD (by simp [Forest.dirTargets]; exact Or.inr hh)
        have hxj : x ≠ j := by
          intro hh
          exact hxT (by
            rw [hh]
            show FsTree.root (FsTree.dir j ks0) ∈ _
            simp [FsTree.targets, FsTree.root])
        refine ((d8 x hxD' hxF hxd).trans ((t6 x hxT).trans ?_))
        dsimp only
        rw [Function.update_noteq hxd]
      · refine d9.trans (t7.trans ?_)
        dsimp only [FsTree.root]
        rw [if_neg (hcbs j hjm), List.append_nil]
      · refine d10.trans (t8.trans ?_)
        dsimp only [FsTree.root]
        rw [List.erase_of_not_mem (hcbs j hjm)]
      · intro x hx
        have hx1 : x ∉ FsTree.ids (FsTree.dir j ks0) := fun hh => hx (hmemT x hh)
        have hx2 : x ∉ Forest.ids ts := fun hh => hx (hmemF x hh)
        refine (d11 x hx2).trans ((t9 x hx1).trans ?_)
        show Function.update s.info j (some ⟨r, false, tg, og⟩) x = s.info x
        rw [Function.update_noteq (by
          intro hh
          rw [hh] at hx1
          exact hx1 (FsTree.root_mem_ids (FsTree.dir j ks0)))]

end

theorem ScrubStack.dstep_quiescent (env : Env) (s : ScrubStack)
    (hp : s.pending_kicks = 0) (hi : s.inflight = []) :
    ScrubStack.dstep env s = s := by
  unfold ScrubStack.dstep
  rw [if_neg (by omega), hi]

/-- C4: for an enqueue of a finite subtree's root with a completion
callback (`on_finish = true`, either insertion end), the callback fires
exactly once — along the fair driver, from the drain bound onward the
fired list is exactly the singleton of the enqueued root, every requested
target has reached Done and the scheduler is drained quiescent — and the
callback only ever fires at Done: in every reachable state of the event
model, every fired dentry's entry state is Done. -/
theorem on_finish_fires_exactly_once_at_done
    (env : Env) (t : FsTree) (r c : Bool) (tg : String) (top : Bool)
    (hag : FsTree.agrees env t = true) (hnd : (FsTree.ids t).Nodup) :
    (∀ m, FsTree.fuel t + 1 ≤ m →
      (ScrubStack.iter env m
        (ScrubStack.initial.enqueue_dentry (FsTree.root t) r c tg true top)).fired =
          [FsTree.root t] ∧
      (∀ y ∈ FsTree.targets r c t,
        (ScrubStack.iter env m
          (ScrubStack.initial.enqueue_dentry (FsTree.root t) r c tg true top)).est y =
            EntryState.done) ∧
      (ScrubStack.iter env m
        (ScrubStack.initial.enqueue_dentry (FsTree.root t) r c tg true top)).dentry_stack = [] ∧
      (ScrubStack.iter env m
        (ScrubStack.initial.enqueue_dentry (FsTree.root t) r c tg true top)).scrubs_in_progress = 0 ∧
      ScrubStack.quiescent
        (ScrubStack.iter env m
          (ScrubStack.initial.enqueue_dentry (FsTree.root t) r c tg true top))) ∧
    (∀ (env2 : Env) (evs : List SEvent) (x : Nat),
      x ∈ (ScrubStack.reach env2 evs).fired →
      (ScrubStack.reach env2 evs).est x = EntryState.done) := by
  constructor
  · intro m hm
    obtain ⟨n, hn, t1, t2, t3, t4, t5, t6, t7, t8, t9⟩ :=
      drainT_holds t env
        (ScrubStack.initial.enqueue_dentry (FsTree.root t) r c tg true top)
        [] [] r c tg (FsTree.root t) hag hnd
        (by cases top <;> simp [ScrubStack.enqueue_dentry, ScrubStack.initial])
        (by cases top <;> simp [ScrubStack.enqueue_dentry, ScrubStack.initial])
        (by cases top <;> simp [ScrubStack.enqueue_dentry, ScrubStack.initial])
        (by cases top <;> simp [ScrubStack.enqueue_dentry, ScrubStack.initial])
        (by
          intro x _
          cases top <;> simp [ScrubStack.enqueue_dentry, ScrubStack.initial])
        (fun x _ => List.not_mem_nil x)
        (fun x _ => List.not_mem_nil x)
        (by
          intro x _ hxr
          cases top <;>
            simp [ScrubStack.enqueue_dentry, ScrubStack.initial, hxr])
        (by
          intro x _ hxr
          cases top <;>
            simp [ScrubStack.enqueue_dentry, ScrubStack.initial,
              Function.update_noteq hxr])
        (by cases top <;> simp [ScrubStack.enqueue_dentry, ScrubStack.initial])
    have h2 : ScrubStack.iter env (n + 1)
        (ScrubStack.initial.enqueue_dentry (FsTree.root t) r c tg true top) =
        { ScrubStack.iter env n
            (ScrubStack.initial.enqueue_dentry (FsTree.root t) r c tg true top) with
          pending_kicks := 0 } := by
      rw [ScrubStack.iter_add env n 1, ScrubStack.iter_one,
        ScrubStack.dstep_kick env _ 0 t2]
      exact ScrubStack.kick_empty env _ t1
    have hfix : ScrubStack.dstep env
        { ScrubStack.iter env n
            (ScrubStack.initial.enqueue_dentry (FsTree.root t) r c tg true top) with
          pending_kicks := 0 } =
        { ScrubStack.iter env n
            (ScrubStack.initial.enqueue_dentry (FsTree.root t) r c tg true top) with
          pending_kicks := 0 } :=
      ScrubStack.dstep_quiescent env _ rfl t3
    have hall : ScrubStack.iter env m
        (ScrubStack.initial.enqueue_dentry (FsTree.root t) r c tg true top) =
        { ScrubStack.iter env n
            (ScrubStack.initial.enqueue_dentry (FsTree.root t) r c tg true top) with
          pending_kicks := 0 } := by
      have hm2 : m = (n + 1) + (m - (n + 1)) := by omega
      rw [hm2, ScrubStack.iter_add env (n + 1) (m - (n + 1)), h2]
      exact ScrubStack.iter_fix env _ hfix _
    refine ⟨?_, ?_, ?_, ?_, ?_⟩
    · rw [hall]
      dsimp only
      rw [t7]
      cases top <;> simp [ScrubStack.enqueue_dentry, ScrubStack.initial]
    · intro y hy
      rw [hall]
      exact t5 y hy
    · rw [hall]
      exact t1
    · rw [hall]
      exact t4
    · rw [hall]
      exact ⟨rfl, t3⟩
  · intro env2 evs x hx
    exact ((ScrubStack.reach_inv env2 evs).1).2.2.2.1 x hx

/-- Witness for C4 at the concrete directory tree `treeSmall` in
`envSmall`: both hypotheses hold by computation and the theorem applies. -/
theorem on_finish_fires_exactly_once_at_done_witness :
    FsTree.agrees envSmall treeSmall = true ∧
    (FsTree.ids treeSmall).Nodup ∧
    ((∀ m, FsTree.fuel treeSmall + 1 ≤ m →
      (ScrubStack.iter envSmall m
        (ScrubStack.initial.enqueue_dentry (FsTree.root treeSmall) true true "tag" true true)).fired =
          [FsTree.root treeSmall] ∧
      (∀ y ∈ FsTree.targets true true treeSmall,
        (ScrubStack.iter envSmall m
          (ScrubStack.initial.enqueue_dentry (FsTree.root treeSmall) true true "tag" true true)).est y =
            EntryState.done) ∧
      (ScrubStack.iter envSmall m
        (ScrubStack.initial.enqueue_dentry (FsTree.root treeSmall) true true "tag" true true)).dentry_stack = [] ∧
      (ScrubStack.iter envSmall m
        (ScrubStack.initial.enqueue_dentry (FsTree.root treeSmall) true true "tag" true true)).scrubs_in_progress = 0 ∧
      ScrubStack.quiescent
        (ScrubStack.iter envSmall m
          (ScrubStack.initial.enqueue_dentry (FsTree.root treeSmall) true true "tag" true true))) ∧
    (∀ (env2 : Env) (evs : List SEvent) (x : Nat),
      x ∈ (ScrubStack.reach env2 evs).fired →
      (ScrubStack.reach env2 evs).est x = EntryState.done)) :=
  ⟨by decide, by decide,
    on_finish_fires_exactly_once_at_done envSmall treeSmall true true "tag" true
      (by decide) (by decide)⟩
